import Mathlib

/-!
# Padded byte slices and their pool (package `padded`)

A shallow embedding of `padded.go` and `pool.go`.

* Memory is a list of blocks (backing arrays); a block is the list of its
  bytes and its identity is its index in the list.  A Go slice is a view
  `(blk, off, len, cap)`: its data pointer is byte `off` of block `blk`.
  Pointer arithmetic on the data pointer is arithmetic on `off`; a read or a
  write outside the block is outside the model and yields `none`.
* The data pointer of the result of a slice expression is the one the Go
  compiler computes: the low index is added to the pointer of the operand
  unless the result has capacity 0, which keeps the pointer of the operand
  (`slicePtr`).
* A panic (index out of range, slice bounds out of range, makeslice) is
  `none` as well.
* Lengths, capacities and offsets are natural numbers and the allocator
  always succeeds, also for a block of `2 ^ 56` words or more, which no
  program can allocate; on such a block `initPadding` panics in `PutUvarint`.
  Where a theorem says when `Make` or `Pool.Make` returns, this bound on the
  padding words stands for the allocation the program needs to succeed.  The
  value that `Pad` decodes from memory is data: there the `uint64` and `int`
  arithmetic of the source is modelled with explicit wrap-around.
* `wordSize` is `unsafe.Sizeof(int(0))`; the development fixes the 64-bit
  platform named in the package documentation, where it is 8.
-/

namespace Padded

/-! ## Bytes, words and machine integers -/

abbrev Byte := Fin 256

/-- The constant `wordSize` of `padded.go` on a 64-bit platform. -/
def wordSize : Nat := 8

/-- The value of a 64-bit pattern, or of any integer after wrap-around, read as
a Go `int`. -/
def toInt64 (x : Int) : Int := (x + 2 ^ 63) % 2 ^ 64 - 2 ^ 63

/-! ## `encoding/binary`: unsigned varints -/

/-- The constant `binary.MaxVarintLen64`. -/
def MaxVarintLen64 : Nat := 10

/-- Go's `binary.PutUvarint(buf, x)`: the updated buffer and the number of bytes
written.  The recursion follows the write index through the buffer; running
off its end is the index-out-of-range panic. -/
def PutUvarint : List Byte → Nat → Option (List Byte × Nat)
  | [], _ => none
  | _ :: rest, x =>
    if 0x80 ≤ x then
      match PutUvarint rest (x >>> 7) with
      | none => none
      | some (rest', n) => some (Fin.ofNat (x % 256 ||| 0x80) :: rest', n + 1)
    else some (Fin.ofNat x :: rest, 1)

/-- The loop of Go's `binary.Uvarint`: `i` is the index of the byte at the head
of the list, `x` the accumulated `uint64`, `s` the shift. -/
def UvarintLoop : List Byte → Nat → Nat → Nat → Nat × Int
  | [], _, _, _ => (0, 0)
  | b :: rest, i, x, s =>
    if i = MaxVarintLen64 then (0, -((i : Int) + 1))
    else if b.val < 0x80 then
      if i = MaxVarintLen64 - 1 ∧ 1 < b.val then (0, -((i : Int) + 1))
      else (x ||| (b.val <<< s) % 2 ^ 64, (i : Int) + 1)
    else UvarintLoop rest (i + 1) (x ||| ((b.val &&& 0x7f) <<< s) % 2 ^ 64) (s + 7)

/-- Go's `binary.Uvarint(buf)`: the decoded value and the number of bytes read
(0 when the buffer ends inside the varint, negative on overflow). -/
def Uvarint (buf : List Byte) : Nat × Int := UvarintLoop buf 0 0 0

/-! ## Memory and slices -/

/-- A Go `[]byte` value (`reflect.SliceHeader`): `Data` is byte `off` of block
`blk`, followed by `Len` and `Cap`. -/
structure Slice where
  blk : Nat
  off : Nat
  len : Nat
  cap : Nat
  deriving DecidableEq, Repr

/-- The blocks allocated so far, each with its current content. -/
abbrev Heap := List (List Byte)

/-- The bytes `off .. off + n` of a block. -/
def window (b : List Byte) (off n : Nat) : List Byte := (b.drop off).take n

/-- The block with the bytes from `off` on overwritten by `w`. -/
def splice (b : List Byte) (off : Nat) (w : List Byte) : List Byte :=
  b.take off ++ w ++ b.drop (off + w.length)

/-- The visible bytes `s[0:len(s)]` of a slice. -/
def Heap.bytes (h : Heap) (s : Slice) : Option (List Byte) :=
  match h[s.blk]? with
  | none => none
  | some b => if s.off + s.len ≤ b.length then some (window b s.off s.len) else none

/-- Writes `w` into block `blk` from offset `off` on (`copy` into a view). -/
def Heap.store (h : Heap) (blk off : Nat) (w : List Byte) : Option Heap :=
  match h[blk]? with
  | none => none
  | some b => if off + w.length ≤ b.length then some (h.set blk (splice b off w)) else none

/-- A slice lies inside an allocated block. -/
def Heap.valid (h : Heap) (s : Slice) : Prop :=
  s.len ≤ s.cap ∧ ∃ b, h[s.blk]? = some b ∧ s.off + s.cap ≤ b.length

/-- The slice expression `s[:hi]`. -/
def Slice.sliceTo (s : Slice) (hi : Nat) : Option Slice :=
  if hi ≤ s.cap then some { s with len := hi } else none

/-- The data pointer of the result of a slice expression with low index `lo` on a
slice whose data pointer is `off`, the result having capacity `rcap`.  The Go
compiler computes it as `ptr + (mask(rcap) & lo)`: `lo` bytes past the pointer of
the operand, except for a result of capacity 0, which keeps the pointer of the
operand so that it never points behind the end of the block. -/
def slicePtr (off lo rcap : Nat) : Nat := if rcap = 0 then off else off + lo

/-- The slice expression `s[lo:]`. -/
def Slice.sliceFrom (s : Slice) (lo : Nat) : Option Slice :=
  if lo ≤ s.len then some ⟨s.blk, slicePtr s.off lo (s.cap - lo), s.len - lo, s.cap - lo⟩
  else none

/-- The full slice expression `s[lo:hi:max]`.  A result of capacity 0
(`max = lo`) has the data pointer of `s` itself, not the byte `lo` of `s` that
the pointer arithmetic of `Pad`, `Prepend` and `Free` counts on. -/
def Slice.slice3 (s : Slice) (lo hi max : Nat) : Option Slice :=
  if lo ≤ hi ∧ hi ≤ max ∧ max ≤ s.cap then
    some ⟨s.blk, slicePtr s.off lo (max - lo), hi - lo, max - lo⟩
  else none

/-- The built-in `make([]byte, len, cap)`: a fresh zeroed block. -/
def goMake (h : Heap) (len cap : Nat) : Option (Heap × Slice) :=
  if len ≤ cap then some (h ++ [List.replicate cap 0], ⟨h.length, 0, len, cap⟩) else none

/-- What the Go runtime decides when the built-in `append` has to grow: the
capacity of the new backing array, which is at least the length needed. -/
structure Runtime where
  growCap : Nat → Nat → Nat
  le_growCap : ∀ old need, need ≤ growCap old need

/-- The built-in `append(s, elems...)`, the appended bytes given by value: in
place when the capacity suffices, otherwise into a fresh block. -/
def goAppend (rt : Runtime) (h : Heap) (s : Slice) (elems : List Byte) :
    Option (Heap × Slice) :=
  if s.len + elems.length ≤ s.cap then
    match h.store s.blk (s.off + s.len) elems with
    | none => none
    | some h' => some (h', { s with len := s.len + elems.length })
  else
    match h.bytes s with
    | none => none
    | some old =>
      let need := s.len + elems.length
      let newcap := rt.growCap s.cap need
      some (h ++ [old ++ elems ++ List.replicate (newcap - need) 0],
        ⟨h.length, 0, need, newcap⟩)

/-! ## `padded.go` -/

/-- The loop of `initPadding` on the bytes of its argument, `n` iterations left
and `i` the loop variable: word `i` receives the varint of `i`. -/
def initPaddingLoop : Nat → Nat → List Byte → Option (List Byte)
  | 0, _, s => some s
  | n + 1, i, s =>
    let idx := i * wordSize
    match PutUvarint (window s idx wordSize) i with
    | none => none
    | some (w, _) => initPaddingLoop n (i + 1) (splice s idx w)

/-- The function `initPadding(s)`: runs the loop over the bytes that `s` views and
leaves the result in the block. -/
def initPadding (h : Heap) (s : Slice) : Option Heap :=
  match h.bytes s with
  | none => none
  | some bytes =>
    match initPaddingLoop (s.len / wordSize) 0 bytes with
    | none => none
    | some bytes' => h.store s.blk s.off bytes'

/-- The padding `Make` and `Pool.Make` round their argument to. -/
def roundPad (pad : Nat) : Nat :=
  if pad % wordSize ≠ 0 then (1 + pad / wordSize) * wordSize else pad

/-- The function `Make(len, cap, pad)`. -/
def Make (h : Heap) (len cap pad : Nat) : Option (Heap × Slice) :=
  let pad := roundPad pad
  let pad := pad + wordSize
  match goMake h (pad + len) (pad + cap) with
  | none => none
  | some (h1, slice) =>
    match slice.sliceTo pad with
    | none => none
    | some hd =>
      match initPadding h1 hd with
      | none => none
      | some h2 =>
        match slice.slice3 pad (pad + len) (pad + cap) with
        | none => none
        | some r => some (h2, r)

/-- The method `Slice.Pad`: decodes the word in front of the data pointer. -/
def Slice.Pad (h : Heap) (s : Slice) : Option Int :=
  match h[s.blk]? with
  | none => none
  | some b =>
    if wordSize ≤ s.off ∧ s.off ≤ b.length then
      let buf := window b (s.off - wordSize) wordSize
      let pad := (Uvarint buf).1
      some (toInt64 (toInt64 pad * wordSize))
    else none

/-- The method `Slice.Append`.  In the reallocating branch the arguments of the
outer `append` are evaluated first, `make([]byte, wordSize)` and then the inner
`append(s, elems...)`, whose bytes the outer `append` copies. -/
def Slice.Append (rt : Runtime) (h : Heap) (s : Slice) (elems : List Byte) :
    Option (Heap × Slice) :=
  if s.cap < s.len + elems.length then
    match goMake h wordSize wordSize with
    | none => none
    | some (h1, z) =>
      match goAppend rt h1 s elems with
      | none => none
      | some (h2, t) =>
        match h2.bytes t with
        | none => none
        | some tb =>
          match goAppend rt h2 z tb with
          | none => none
          | some (h3, slice) =>
            match slice.sliceFrom wordSize with
            | none => none
            | some r => some (h3, r)
  else goAppend rt h s elems

/-- The reallocating branch of `Slice.Prepend`:
`append(make([]byte, wordSize), append(elems, s...)...)[wordSize:]`.  The
variadic argument `elems` is given by value, so the inner `append`, which
extends the caller's `elems`, is the list `elems ++ s`. -/
def prependRealloc (rt : Runtime) (h : Heap) (s : Slice) (elems : List Byte) :
    Option (Heap × Slice) :=
  match goMake h wordSize wordSize with
  | none => none
  | some (h1, z) =>
    match h1.bytes s with
    | none => none
    | some sb =>
      match goAppend rt h1 z (elems ++ sb) with
      | none => none
      | some (h2, slice) =>
        match slice.sliceFrom wordSize with
        | none => none
        | some r => some (h2, r)

/-- The in-place branch of `Slice.Prepend`: the header of `s` is moved `pad`
bytes to the front and `copy(s, elems)` fills the bytes gained. -/
def prependInPlace (h : Heap) (s : Slice) (elems : List Byte) : Option (Heap × Slice) :=
  let pad := elems.length
  if pad ≤ s.off then
    let s' : Slice := ⟨s.blk, s.off - pad, s.len + pad, s.cap + pad⟩
    match h.store s'.blk s'.off (elems.take s'.len) with
    | none => none
    | some h' => some (h', s')
  else none

/-- The method `Slice.Prepend`.  The condition is evaluated left to right, so
`s.Pad()` is read only for an aligned `elems`. -/
def Slice.Prepend (rt : Runtime) (h : Heap) (s : Slice) (elems : List Byte) :
    Option (Heap × Slice) :=
  let pad := elems.length
  if pad % wordSize ≠ 0 then prependRealloc rt h s elems
  else
    match s.Pad h with
    | none => none
    | some p =>
      if p < (pad : Int) then prependRealloc rt h s elems
      else prependInPlace h s elems

/-! ## `pool.go` -/

/-- The type `Pool`: the `*[]byte` values its `sync.Pool` holds, put and not yet
taken. -/
structure Pool where
  items : List Slice
  deriving DecidableEq, Repr

/-- The function `realloc(blk, len, cap, pad)`. -/
def realloc (h : Heap) (blk : Slice) (len cap pad : Nat) : Option (Heap × Slice) :=
  let pad := pad + wordSize
  match blk.sliceTo pad with
  | none => none
  | some hd =>
    match initPadding h hd with
    | none => none
    | some h' =>
      match blk.slice3 pad (pad + len) (pad + cap) with
      | none => none
      | some r => some (h', r)

/-- The method `Pool.get(min)`.  `sync.Pool.Get` takes an arbitrary item out of
the pool or returns nil: `pick` is its choice, `none` for nil and `some i` for
item `i`.  An item that is too short is dropped. -/
def Pool.get (p : Pool) (pick : Option Nat) (min : Nat) : Pool × Option Slice :=
  match pick with
  | none => (p, none)
  | some i =>
    match p.items[i]? with
    | none => (p, none)
    | some blk =>
      if min ≤ blk.len then (⟨p.items.eraseIdx i⟩, some blk)
      else (⟨p.items.eraseIdx i⟩, none)

/-- The method `Pool.put(s)`. -/
def Pool.put (p : Pool) (s : Slice) : Pool := ⟨s :: p.items⟩

/-- The method `Pool.Make(len, cap, pad)`: the pool left behind, the memory and
the slice. -/
def Pool.Make (p : Pool) (h : Heap) (pick : Option Nat) (len cap pad : Nat) :
    Option (Pool × Heap × Slice) :=
  let pad := roundPad pad
  match p.get pick (pad + cap + wordSize) with
  | (p', some blk) =>
    match realloc h blk len cap pad with
    | none => none
    | some (h', s) => some (p', h', s)
  | (p', none) =>
    match Padded.Make h len cap pad with
    | none => none
    | some (h', s) => some (p', h', s)

/-- The method `Pool.Free(s)`: the header of `s` is moved back over padding and
header word and the slice is put into the pool. -/
def Pool.Free (p : Pool) (h : Heap) (s : Slice) : Option Pool :=
  match s.Pad h with
  | none => none
  | some sp =>
    let pad := toInt64 (sp + wordSize)
    if 0 ≤ pad ∧ pad ≤ (s.off : Int) then
      let n := pad.toNat
      some (p.put ⟨s.blk, s.off - n, s.cap + n, s.cap + n⟩)
    else none

/-- The block both reallocating branches build: a zero word, the content, and
the spare capacity the runtime adds. -/
def freshBlock (rt : Runtime) (content : List Byte) : List Byte :=
  List.replicate wordSize 0 ++ content ++
    List.replicate (rt.growCap wordSize (wordSize + content.length) - (wordSize + content.length)) 0

/-! ## Slices of a program -/

/-- A spare block as `Free` leaves it: a view inside an allocated block that
starts at the origin of the block. -/
def Heap.spare (h : Heap) (b : Slice) : Prop := h.valid b ∧ b.off = 0

/-- The layout `Make` and `realloc` establish for a capacity above 0 and `Append`
and `Prepend` keep: the slice lies inside its block, at a word boundary behind at
least one word, and word `j` in front of it holds the varint of `j`. -/
def Layout (h : Heap) (s : Slice) : Prop :=
  h.valid s ∧ wordSize ≤ s.off ∧ s.off % wordSize = 0 ∧
    ∀ b, h[s.blk]? = some b → ∀ j, j < s.off / wordSize →
      (Uvarint (window b (j * wordSize) wordSize)).1 = j

/-- What the rest of a program may do to the memory while it holds the slice `s`:
allocate, and write anywhere but in the bytes in front of `s` in the block of
`s`, which keeps its length. -/
def Heap.keeps (h h' : Heap) (s : Slice) : Prop :=
  ∀ b, h[s.blk]? = some b →
    ∃ b', h'[s.blk]? = some b' ∧ b'.length = b.length ∧ window b' 0 s.off = window b 0 s.off

/-- The slices a program obtains from `Make` or `Pool.Make` (on a pool of spare
blocks) with a capacity above 0, and then from `Append` and `Prepend`, each with
the memory the last call left or the rest of the program has changed since.  A
slice made with capacity 0 does not start behind its header words (`slicePtr`)
and is no slice of this kind. -/
inductive Reachable (rt : Runtime) : Heap → Slice → Prop
  | make {h h' : Heap} {s : Slice} (len cap pad : Nat) :
      0 < cap → Make h len cap pad = some (h', s) → Reachable rt h' s
  | poolMake {p p' : Pool} {h h' : Heap} {s : Slice} (pick : Option Nat) (len cap pad : Nat) :
      0 < cap → (∀ b ∈ p.items, h.spare b) →
      Pool.Make p h pick len cap pad = some (p', h', s) → Reachable rt h' s
  | append {h h' : Heap} {s s' : Slice} (elems : List Byte) :
      Reachable rt h s → s.Append rt h elems = some (h', s') → Reachable rt h' s'
  | prepend {h h' : Heap} {s s' : Slice} (elems : List Byte) :
      Reachable rt h s → s.Prepend rt h elems = some (h', s') → Reachable rt h' s'
  | other {h h' : Heap} {s : Slice} :
      Reachable rt h s → h.keeps h' s → Reachable rt h' s

/-! ## Sample inputs -/

/-- A runtime whose `append` grows to exactly the length needed. -/
def exactRuntime : Runtime := ⟨fun _ need => need, fun _ _ => Nat.le_refl _⟩

/-- The memory after `Make(1, 2, 8)` on empty memory: two header words and two
bytes of capacity. -/
def sampleHeap : Heap := [[0, 0, 0, 0, 0, 0, 0, 0, 1, 0, 0, 0, 0, 0, 0, 0, 0, 0]]

/-- The slice `Make(1, 2, 8)` returns on empty memory. -/
def sampleSlice : Slice := ⟨0, 16, 1, 2⟩

/-- A pool holding the whole block of `sampleHeap`. -/
def samplePool : Pool := ⟨[⟨0, 0, 18, 18⟩]⟩

/-- The memory after `Make(0, 0, 16)` on empty memory: one block of three numbered
words. -/
def zeroCapHeap : Heap :=
  [[0, 0, 0, 0, 0, 0, 0, 0, 1, 0, 0, 0, 0, 0, 0, 0, 2, 0, 0, 0, 0, 0, 0, 0]]

/-- The slice `Make(0, 0, 16)` returns on empty memory: its capacity is 0 and its
data pointer is the origin of the block. -/
def zeroCapSlice : Slice := ⟨0, 0, 0, 0⟩

/-- The memory of `sampleHeap` after one more allocation and a `Prepend` of the
bytes 1 to 8 to `sampleSlice`, which fill its padding. -/
def usedHeap : Heap := [[0, 0, 0, 0, 0, 0, 0, 0, 1, 2, 3, 4, 5, 6, 7, 8, 0, 0], [0]]

/-- The slice that `Prepend` returns. -/
def usedSlice : Slice := ⟨0, 8, 9, 10⟩

/-! ## Derived slices, encoded words and sequences of `Pool.Make` -/

/-- The slices derived from `s` (with memory `h`) by further `Append` and `Prepend`
calls, each with the memory the last call left. -/
inductive Derived (rt : Runtime) (h : Heap) (s : Slice) : Heap → Slice → Prop
  | refl : Derived rt h s h s
  | append {h1 h2 : Heap} {s1 s2 : Slice} (elems : List Byte) :
      Derived rt h s h1 s1 → s1.Append rt h1 elems = some (h2, s2) → Derived rt h s h2 s2
  | prepend {h1 h2 : Heap} {s1 s2 : Slice} (elems : List Byte) :
      Derived rt h s h1 s1 → s1.Prepend rt h1 elems = some (h2, s2) → Derived rt h s h2 s2

/-- The word `w` holds the varint encoding of `n`: writing `n` into it with
`PutUvarint` succeeds and changes no byte. -/
def holdsUvarint (w : List Byte) (n : Nat) : Prop :=
  (PutUvarint w n).map Prod.fst = some w

instance (w : List Byte) (n : Nat) : Decidable (holdsUvarint w n) :=
  inferInstanceAs (Decidable ((PutUvarint w n).map Prod.fst = some w))

set_option maxRecDepth 100000 in
theorem byte_cont_facts : ∀ y : Fin 256,
    0x80 ≤ (y.val ||| 0x80) % 256 ∧ ((y.val ||| 0x80) % 256) &&& 0x7f = y.val % 128 := by
  decide

theorem ofNat_cont_val (x : Nat) :
    0x80 ≤ (Fin.ofNat (x % 256 ||| 0x80) : Byte).val ∧
      (Fin.ofNat (x % 256 ||| 0x80) : Byte).val &&& 0x7f = x % 128 := by
  have h := byte_cont_facts ⟨x % 256, Nat.mod_lt _ (by norm_num)⟩
  have e : (Fin.ofNat (x % 256 ||| 0x80) : Byte).val = (x % 256 ||| 0x80) % 256 := rfl
  rw [e]
  refine ⟨h.1, ?_⟩
  rw [h.2]
  simp only []
  omega

theorem PutUvarint_length : ∀ (buf : List Byte) (x : Nat) (buf' : List Byte) (k : Nat),
    PutUvarint buf x = some (buf', k) → buf'.length = buf.length := by
  intro buf
  induction buf with
  | nil => intro x buf' k h; simp [PutUvarint] at h
  | cons b rest ih =>
    intro x buf' k h
    unfold PutUvarint at h
    split at h
    · cases hr : PutUvarint rest (x >>> 7) with
      | none => simp [hr] at h
      | some r =>
        obtain ⟨r1, r2⟩ := r
        simp [hr] at h
        obtain ⟨h1, _⟩ := h
        subst h1
        simp [ih _ _ _ hr]
    · simp at h
      obtain ⟨h1, _⟩ := h
      subst h1
      simp

theorem PutUvarint_none_of_large : ∀ (buf : List Byte) (x : Nat),
    2 ^ (7 * buf.length) ≤ x → PutUvarint buf x = none := by
  intro buf
  induction buf with
  | nil => intro x _; rfl
  | cons b rest ih =>
    intro x hx
    have hlen : 7 * (b :: rest).length = 7 * rest.length + 7 := by simp; ring
    rw [hlen, pow_add] at hx
    have h128 : 0x80 ≤ x := by
      have : 1 ≤ 2 ^ (7 * rest.length) := Nat.one_le_two_pow
      nlinarith
    have hsh : 2 ^ (7 * rest.length) ≤ x >>> 7 := by
      rw [Nat.shiftRight_eq_div_pow]
      apply (Nat.le_div_iff_mul_le (by norm_num)).2
      exact hx
    unfold PutUvarint
    rw [if_pos h128, ih _ hsh]

theorem PutUvarint_some_of_small : ∀ (buf : List Byte) (x : Nat),
    buf ≠ [] → x < 2 ^ (7 * buf.length) → ∃ buf' k, PutUvarint buf x = some (buf', k) := by
  intro buf
  induction buf with
  | nil => intro x h; exact absurd rfl h
  | cons b rest ih =>
    intro x _ hx
    unfold PutUvarint
    by_cases h128 : 0x80 ≤ x
    · rw [if_pos h128]
      have hlen : 7 * (b :: rest).length = 7 * rest.length + 7 := by simp; ring
      rw [hlen, pow_add] at hx
      have hsh : x >>> 7 < 2 ^ (7 * rest.length) := by
        rw [Nat.shiftRight_eq_div_pow]
        apply (Nat.div_lt_iff_lt_mul (by norm_num)).2
        exact hx
      have hne : rest ≠ [] := by
        intro hnil
        subst hnil
        simp at hx
        omega
      obtain ⟨r, k, hr⟩ := ih _ hne hsh
      rw [hr]
      exact ⟨_, _, rfl⟩
    · rw [if_neg h128]
      exact ⟨_, _, rfl⟩

theorem toInt64_of_lt (x : Int) (h0 : 0 ≤ x) (h1 : x < 2 ^ 63) : toInt64 x = x := by
  unfold toInt64
  omega

theorem UvarintLoop_PutUvarint : ∀ (buf : List Byte) (x : Nat) (buf' : List Byte)
    (k i acc s : Nat), PutUvarint buf x = some (buf', k) → i + buf.length ≤ 9 →
    acc < 2 ^ s → acc + x * 2 ^ s < 2 ^ 64 →
    UvarintLoop buf' i acc s = (acc + x * 2 ^ s, ((i + k : Nat) : Int)) := by
  intro buf
  induction buf with
  | nil => intro x buf' k i acc s h; simp [PutUvarint] at h
  | cons b rest ih =>
    intro x buf' k i acc s h hi hacc hval
    have hi8 : i ≤ 8 := by simp at hi; omega
    have hpos : 0 < 2 ^ s := Nat.two_pow_pos s
    unfold PutUvarint at h
    by_cases h128 : 0x80 ≤ x
    · rw [if_pos h128] at h
      cases hr : PutUvarint rest (x >>> 7) with
      | none => simp [hr] at h
      | some r =>
        obtain ⟨r1, n⟩ := r
        simp only [hr, Option.some.injEq, Prod.mk.injEq] at h
        obtain ⟨h1, h2⟩ := h
        subst h1 h2
        obtain ⟨hb1, hb2⟩ := ofNat_cont_val x
        have hlow : x % 128 * 2 ^ s ≤ x * 2 ^ s :=
          Nat.mul_le_mul_right _ (Nat.mod_le _ _)
        have hor : acc ||| (x % 128 * 2 ^ s) = acc + x % 128 * 2 ^ s := by
          rw [Nat.lor_comm, Nat.mul_comm, ← Nat.mul_add_lt_is_or hacc, Nat.add_comm]
        have hsplit : x % 128 + 128 * (x / 128) = x := Nat.mod_add_div x 128
        unfold UvarintLoop
        rw [if_neg (by unfold MaxVarintLen64; omega), if_neg (by omega), hb2,
          Nat.shiftLeft_eq, Nat.mod_eq_of_lt (by omega), hor]
        have hacc' : acc + x % 128 * 2 ^ s < 2 ^ (s + 7) := by
          rw [pow_add]
          have : x % 128 < 128 := Nat.mod_lt _ (by norm_num)
          nlinarith
        have hsum : acc + x % 128 * 2 ^ s + (x >>> 7) * 2 ^ (s + 7) = acc + x * 2 ^ s := by
          rw [Nat.shiftRight_eq_div_pow, pow_add]
          have e : (2 : Nat) ^ 7 = 128 := by norm_num
          rw [e]
          nlinarith
        have hi' : i + 1 + rest.length ≤ 9 := by simp at hi; omega
        rw [ih (x >>> 7) r1 n (i + 1) _ (s + 7) hr hi' hacc' (by rw [hsum]; exact hval), hsum]
        congr 2
        omega
    · rw [if_neg h128] at h
      simp only [Option.some.injEq, Prod.mk.injEq] at h
      obtain ⟨h1, h2⟩ := h
      subst h1 h2
      have hx : x < 128 := by omega
      have hv : (Fin.ofNat x : Byte).val = x := by
        show x % 256 = x
        omega
      have hor : acc ||| (x * 2 ^ s) = acc + x * 2 ^ s := by
        rw [Nat.lor_comm, Nat.mul_comm, ← Nat.mul_add_lt_is_or hacc, Nat.add_comm]
      unfold UvarintLoop
      rw [if_neg (by unfold MaxVarintLen64; omega), hv, if_pos (by omega),
        if_neg (by unfold MaxVarintLen64; omega), Nat.shiftLeft_eq,
        Nat.mod_eq_of_lt (by omega), hor]
      rfl

/-- Decoding a word into which `x` was just encoded yields `x`, whatever the word
held before. -/
theorem Uvarint_PutUvarint (buf buf' : List Byte) (x k : Nat) (hlen : buf.length ≤ 9)
    (h : PutUvarint buf x = some (buf', k)) : Uvarint buf' = (x, (k : Int)) := by
  have hx : x < 2 ^ (7 * buf.length) := by
    by_contra hc
    rw [PutUvarint_none_of_large buf x (Nat.le_of_not_lt hc)] at h
    exact Option.noConfusion h
  have h63 : (2 : Nat) ^ (7 * buf.length) ≤ 2 ^ 63 :=
    Nat.pow_le_pow_right (by norm_num) (by omega)
  have := UvarintLoop_PutUvarint buf x buf' k 0 0 0 h (by omega) (by norm_num)
    (by norm_num; omega)
  simpa [Uvarint] using this

theorem UvarintLoop_lt : ∀ (buf : List Byte) (i acc s : Nat), acc < 2 ^ s →
    (UvarintLoop buf i acc s).1 < 2 ^ (s + 7 * buf.length) := by
  intro buf
  induction buf with
  | nil => intro i acc s _; exact Nat.two_pow_pos _
  | cons b rest ih =>
    intro i acc s hacc
    have hlen : s + 7 * (b :: rest).length = s + 7 + 7 * rest.length := by
      simp only [List.length_cons]; ring
    have hmono : (2 : Nat) ^ (s + 7) ≤ 2 ^ (s + 7 + 7 * rest.length) :=
      Nat.pow_le_pow_right (by norm_num) (by omega)
    have hacc7 : acc < 2 ^ (s + 7) :=
      lt_of_lt_of_le hacc (Nat.pow_le_pow_right (by norm_num) (by omega))
    have hstep : ∀ c : Nat, c < 128 → acc ||| (c <<< s) % 2 ^ 64 < 2 ^ (s + 7) := by
      intro c hc
      apply Nat.or_lt_two_pow hacc7
      apply lt_of_le_of_lt (Nat.mod_le _ _)
      rw [Nat.shiftLeft_eq, pow_add, Nat.mul_comm]
      exact Nat.mul_lt_mul_of_pos_left hc (Nat.two_pow_pos s)
    rw [hlen]
    unfold UvarintLoop
    split
    · exact Nat.two_pow_pos _
    · split
      · rename_i hb
        split
        · exact Nat.two_pow_pos _
        · exact lt_of_lt_of_le (hstep _ hb) hmono
      · apply ih
        apply hstep
        exact lt_of_le_of_lt Nat.and_le_right (by norm_num)

theorem UvarintLoop_no_terminator : ∀ (buf : List Byte) (i acc s : Nat),
    (∀ b ∈ buf, 0x80 ≤ b.val) → i + buf.length ≤ 10 → UvarintLoop buf i acc s = (0, 0) := by
  intro buf
  induction buf with
  | nil => intro i acc s _ _; rfl
  | cons b rest ih =>
    intro i acc s hall hi
    have hb : 0x80 ≤ b.val := hall b (List.mem_cons_self _ _)
    simp only [List.length_cons] at hi
    unfold UvarintLoop
    rw [if_neg (by unfold MaxVarintLen64; omega), if_neg (by omega)]
    exact ih _ _ _ (fun c hc => hall c (List.mem_cons_of_mem _ hc)) (by omega)

/-! ## Windows and splices -/

theorem window_getElem? (b : List Byte) (off n k : Nat) :
    (window b off n)[k]? = if k < n then b[off + k]? else none := by
  unfold window
  rw [List.getElem?_take]
  split
  · rw [List.getElem?_drop]
  · rfl

theorem splice_getElem? (b : List Byte) (off : Nat) (w : List Byte) (m : Nat)
    (h : off + w.length ≤ b.length) :
    (splice b off w)[m]? =
      if m < off then b[m]? else if m < off + w.length then w[m - off]? else b[m]? := by
  unfold splice
  have hl : (b.take off).length = off := by simp; omega
  by_cases h1 : m < off
  · rw [if_pos h1, List.append_assoc, List.getElem?_append_left (by omega),
      List.getElem?_take, if_pos h1]
  · rw [if_neg h1, List.append_assoc, List.getElem?_append_right (by omega), hl]
    by_cases h2 : m < off + w.length
    · rw [if_pos h2, List.getElem?_append_left (by omega)]
    · rw [if_neg h2, List.getElem?_append_right (by omega), List.getElem?_drop]
      congr 1
      omega

theorem window_length (b : List Byte) (off n : Nat) (h : off + n ≤ b.length) :
    (window b off n).length = n := by
  unfold window
  simp
  omega

theorem window_length_le (b : List Byte) (off n : Nat) : (window b off n).length ≤ n := by
  unfold window
  simp

theorem splice_length (b : List Byte) (off : Nat) (w : List Byte)
    (h : off + w.length ≤ b.length) : (splice b off w).length = b.length := by
  unfold splice
  simp
  omega

theorem window_splice_same (b : List Byte) (off : Nat) (w : List Byte)
    (h : off + w.length ≤ b.length) : window (splice b off w) off w.length = w := by
  apply List.ext_getElem?
  intro k
  rw [window_getElem?]
  split
  · rw [splice_getElem? _ _ _ _ h, if_neg (by omega), if_pos (by omega)]
    congr 1
    omega
  · rw [List.getElem?_eq_none (by omega)]

theorem window_splice_disjoint (b : List Byte) (off : Nat) (w : List Byte) (o n : Nat)
    (h : off + w.length ≤ b.length) (hd : o + n ≤ off ∨ off + w.length ≤ o) :
    window (splice b off w) o n = window b o n := by
  apply List.ext_getElem?
  intro k
  rw [window_getElem?, window_getElem?]
  split
  · rw [splice_getElem? _ _ _ _ h]
    split
    · rfl
    · rw [if_neg (by omega)]
  · rfl

theorem window_window (b : List Byte) (o n o' n' : Nat) (h : o' + n' ≤ n) :
    window (window b o n) o' n' = window b (o + o') n' := by
  apply List.ext_getElem?
  intro k
  by_cases hk : k < n'
  · rw [window_getElem?, if_pos hk, window_getElem?, if_pos (by omega), window_getElem?,
      if_pos hk, Nat.add_assoc]
  · rw [window_getElem?, if_neg hk, window_getElem?, if_neg hk]

theorem window_full (b : List Byte) : window b 0 b.length = b := by
  unfold window
  simp

theorem window_replicate (c : Byte) (m off n : Nat) (h : off + n ≤ m) :
    window (List.replicate m c) off n = List.replicate n c := by
  unfold window
  simp
  omega

/-! ## `initPadding` -/

theorem initPaddingLoop_spec : ∀ (n i : Nat) (s s' : List Byte),
    (i + n) * wordSize ≤ s.length → initPaddingLoop n i s = some s' →
    s'.length = s.length ∧
    (∀ j, i ≤ j → j < i + n → (Uvarint (window s' (j * wordSize) wordSize)).1 = j) ∧
    (∀ o m, o + m ≤ i * wordSize ∨ (i + n) * wordSize ≤ o → window s' o m = window s o m) := by
  intro n
  induction n with
  | zero =>
    intro i s s' _ h
    simp only [initPaddingLoop, Option.some.injEq] at h
    subst h
    exact ⟨rfl, fun j h1 h2 => absurd h2 (by omega), fun _ _ _ => rfl⟩
  | succ n ih =>
    intro i s s' hlen h
    unfold wordSize at hlen
    have hwl : (window s (i * wordSize) wordSize).length = 8 :=
      window_length _ _ _ (by unfold wordSize; omega)
    unfold initPaddingLoop at h
    simp only [] at h
    cases hp : PutUvarint (window s (i * wordSize) wordSize) i with
    | none => simp [hp] at h
    | some r =>
      obtain ⟨w, k⟩ := r
      simp only [hp] at h
      have hw : w.length = 8 := by rw [PutUvarint_length _ _ _ _ hp, hwl]
      have hfit : i * wordSize + w.length ≤ s.length := by unfold wordSize; omega
      have hsl : (splice s (i * wordSize) w).length = s.length := splice_length _ _ _ hfit
      obtain ⟨h1, h2, h3⟩ := ih (i + 1) _ s' (by rw [hsl]; unfold wordSize; omega) h
      refine ⟨by rw [h1, hsl], ?_, ?_⟩
      · intro j hj1 hj2
        by_cases hji : j = i
        · subst hji
          rw [h3 _ _ (Or.inl (by unfold wordSize; omega))]
          have := window_splice_same s (j * wordSize) w hfit
          rw [hw] at this
          rw [show wordSize = 8 from rfl] at this ⊢
          rw [this, Uvarint_PutUvarint _ _ _ _ (by omega) hp]
        · exact h2 j (by omega) (by omega)
      · intro o m hom
        rw [h3 _ _ (by unfold wordSize at hom ⊢; omega)]
        exact window_splice_disjoint _ _ _ _ _ hfit (by unfold wordSize at hom ⊢; omega)

theorem initPaddingLoop_some : ∀ (n i : Nat) (s : List Byte),
    (i + n) * wordSize ≤ s.length → i + n ≤ 2 ^ (7 * wordSize) →
    ∃ s', initPaddingLoop n i s = some s' := by
  intro n
  induction n with
  | zero => intro i s _ _; exact ⟨s, rfl⟩
  | succ n ih =>
    intro i s hlen hb
    unfold wordSize at hlen hb
    have hwl : (window s (i * wordSize) wordSize).length = 8 :=
      window_length _ _ _ (by unfold wordSize; omega)
    have hne : window s (i * wordSize) wordSize ≠ [] := by
      intro hnil
      rw [hnil] at hwl
      simp at hwl
    obtain ⟨w, k, hp⟩ := PutUvarint_some_of_small _ i hne (by rw [hwl]; omega)
    have hw : w.length = 8 := by rw [PutUvarint_length _ _ _ _ hp, hwl]
    have hsl : (splice s (i * wordSize) w).length = s.length :=
      splice_length _ _ _ (by unfold wordSize; omega)
    unfold initPaddingLoop
    simp only [hp]
    exact ih (i + 1) _ (by rw [hsl]; unfold wordSize; omega) (by unfold wordSize; omega)

theorem initPaddingLoop_none : ∀ (n i : Nat) (s : List Byte),
    i ≤ 2 ^ (7 * wordSize) → 2 ^ (7 * wordSize) < i + n → initPaddingLoop n i s = none := by
  intro n
  induction n with
  | zero => intro i s h1 h2; omega
  | succ n ih =>
    intro i s h1 h2
    unfold initPaddingLoop
    simp only []
    cases hp : PutUvarint (window s (i * wordSize) wordSize) i with
    | none => rfl
    | some r =>
      obtain ⟨w, k⟩ := r
      simp only []
      have hi : i < 2 ^ (7 * wordSize) := by
        by_contra hc
        have hle : 2 ^ (7 * (window s (i * wordSize) wordSize).length) ≤ i := by
          have h8 := window_length_le s (i * wordSize) wordSize
          have : (2 : Nat) ^ (7 * (window s (i * wordSize) wordSize).length)
              ≤ 2 ^ (7 * wordSize) :=
            Nat.pow_le_pow_right (by norm_num) (by omega)
          omega
        rw [PutUvarint_none_of_large _ _ hle] at hp
        exact Option.noConfusion hp
      exact ih (i + 1) _ (by omega) (by omega)

/-! ## `Make` -/

theorem roundPad_dvd (pad : Nat) : roundPad pad % wordSize = 0 := by
  unfold roundPad wordSize
  split <;> omega

theorem roundPad_ge (pad : Nat) : pad ≤ roundPad pad := by
  unfold roundPad wordSize
  split <;> omega

theorem roundPad_lt (pad : Nat) : roundPad pad < pad + wordSize := by
  unfold roundPad wordSize
  split <;> omega

theorem roundPad_least (pad m : Nat) (hm : m % wordSize = 0) (h : pad ≤ m) :
    roundPad pad ≤ m := by
  unfold roundPad
  unfold wordSize at *
  split <;> omega

theorem roundPad_of_dvd (pad : Nat) (h : pad % wordSize = 0) : roundPad pad = pad := by
  unfold roundPad
  rw [if_neg (by simpa using h)]

theorem slicePtr_pos (off lo rcap : Nat) (h : 0 < rcap) : slicePtr off lo rcap = off + lo := by
  unfold slicePtr
  rw [if_neg (by omega)]

theorem heap_get_new (h : Heap) (b : List Byte) : (h ++ [b])[h.length]? = some b := by
  simp

theorem heap_get_old (h : Heap) (b : List Byte) (i : Nat) (hi : i < h.length) :
    (h ++ [b])[i]? = h[i]? := by
  rw [List.getElem?_append_left hi]

theorem heap_set_new (h : Heap) (b c : List Byte) : (h ++ [b]).set h.length c = h ++ [c] := by
  simp

/-- The block `Make` allocates, as the source builds it: zeroed, then the words
of the first `roundPad pad + wordSize` bytes numbered by `initPadding`. -/
theorem Make_spec (h : Heap) (len cap pad : Nat) (hlc : len ≤ cap)
    (hp : roundPad pad / wordSize < 2 ^ (7 * wordSize)) :
    ∃ blk, Make h len cap pad =
        some (h ++ [blk], ⟨h.length, slicePtr 0 (roundPad pad + wordSize) cap, len, cap⟩) ∧
      blk.length = roundPad pad + wordSize + cap ∧
      (∀ j, j ≤ roundPad pad / wordSize →
        (Uvarint (window blk (j * wordSize) wordSize)).1 = j) ∧
      window blk (roundPad pad + wordSize) cap = List.replicate cap 0 := by
  have hdvd := roundPad_dvd pad
  generalize hP : roundPad pad = P at *
  set z : List Byte := List.replicate (P + wordSize + cap) 0 with hz
  have hzl : z.length = P + wordSize + cap := by simp [hz]
  have hwl : (window z 0 (P + wordSize)).length = P + wordSize :=
    window_length _ _ _ (by omega)
  have hn : (P + wordSize) / wordSize = P / wordSize + 1 := by unfold wordSize at *; omega
  have hmul : (P / wordSize + 1) * wordSize = P + wordSize := by unfold wordSize at *; omega
  obtain ⟨s', hs'⟩ := initPaddingLoop_some (P / wordSize + 1) 0 (window z 0 (P + wordSize))
    (by rw [hwl, Nat.zero_add, hmul]) (by omega)
  obtain ⟨h1, h2, _⟩ := initPaddingLoop_spec _ _ _ _ (by rw [hwl, Nat.zero_add, hmul]) hs'
  have hfit : 0 + s'.length ≤ z.length := by rw [h1, hwl, hzl]; omega
  have hgm : goMake h (P + wordSize + len) (P + wordSize + cap) =
      some (h ++ [z], ⟨h.length, 0, P + wordSize + len, P + wordSize + cap⟩) := by
    unfold goMake
    rw [if_pos (by omega)]
  have hst : Slice.sliceTo ⟨h.length, 0, P + wordSize + len, P + wordSize + cap⟩ (P + wordSize) =
      some ⟨h.length, 0, P + wordSize, P + wordSize + cap⟩ := by
    unfold Slice.sliceTo
    rw [if_pos (by simp)]
  have hip : initPadding (h ++ [z]) ⟨h.length, 0, P + wordSize, P + wordSize + cap⟩ =
      some (h ++ [splice z 0 s']) := by
    unfold initPadding Heap.bytes Heap.store
    simp only [heap_get_new]
    rw [if_pos (by omega)]
    simp only [hn, hs']
    rw [if_pos hfit, heap_set_new]
  have hs3 : Slice.slice3 ⟨h.length, 0, P + wordSize + len, P + wordSize + cap⟩ (P + wordSize)
      (P + wordSize + len) (P + wordSize + cap) =
        some ⟨h.length, slicePtr 0 (P + wordSize) cap, len, cap⟩ := by
    unfold Slice.slice3
    rw [if_pos ⟨by omega, by omega, by simp⟩]
    simp
  refine ⟨splice z 0 s', ?_, ?_, ?_, ?_⟩
  · unfold Make
    simp only [hP, hgm, hst, hip, hs3]
  · rw [splice_length _ _ _ hfit, hzl]
  · intro j hj
    have hsame := window_splice_same z 0 s' hfit
    have hjw : j * wordSize + wordSize ≤ s'.length := by
      rw [h1, hwl]
      unfold wordSize at *
      omega
    have := window_window (splice z 0 s') 0 s'.length (j * wordSize) wordSize hjw
    rw [hsame, Nat.zero_add] at this
    rw [← this]
    exact h2 j (by omega) (by omega)
  · rw [window_splice_disjoint _ _ _ _ _ hfit (Or.inr (by rw [h1, hwl]; omega))]
    exact window_replicate _ _ _ _ (by omega)

/-- With a capacity above 0 the slice `Make` returns starts behind the header
words. -/
theorem Make_spec_pos (h : Heap) (len cap pad : Nat) (hcap : 0 < cap) (hlc : len ≤ cap)
    (hp : roundPad pad / wordSize < 2 ^ (7 * wordSize)) :
    ∃ blk, Make h len cap pad = some (h ++ [blk], ⟨h.length, roundPad pad + wordSize, len, cap⟩) ∧
      blk.length = roundPad pad + wordSize + cap ∧
      (∀ j, j ≤ roundPad pad / wordSize →
        (Uvarint (window blk (j * wordSize) wordSize)).1 = j) ∧
      window blk (roundPad pad + wordSize) cap = List.replicate cap 0 := by
  have := Make_spec h len cap pad hlc hp
  rw [slicePtr_pos _ _ _ hcap, Nat.zero_add] at this
  exact this

theorem Make_none_of_large (h : Heap) (len cap pad : Nat)
    (hp : 2 ^ (7 * wordSize) ≤ roundPad pad / wordSize) : Make h len cap pad = none := by
  have hdvd := roundPad_dvd pad
  generalize hP : roundPad pad = P at *
  have hn : (P + wordSize) / wordSize = P / wordSize + 1 := by unfold wordSize at *; omega
  unfold Make
  simp only [hP, goMake]
  by_cases hlc : P + wordSize + len ≤ P + wordSize + cap
  · rw [if_pos hlc]
    simp only [Slice.sliceTo]
    rw [if_pos (by simp)]
    simp only [initPadding, Heap.bytes, heap_get_new]
    rw [if_pos (by simp)]
    simp only [hn]
    rw [initPaddingLoop_none _ _ _ (Nat.zero_le _) (by omega)]
  · rw [if_neg hlc]

/-! ## `Pad` -/

theorem Uvarint_lt (buf : List Byte) : (Uvarint buf).1 < 2 ^ (7 * buf.length) := by
  have := UvarintLoop_lt buf 0 0 0 (by norm_num)
  simpa [Uvarint] using this

theorem Uvarint_window_lt (b : List Byte) (off : Nat) :
    (Uvarint (window b off wordSize)).1 < 2 ^ (7 * wordSize) :=
  lt_of_lt_of_le (Uvarint_lt _)
    (Nat.pow_le_pow_right (by norm_num) (Nat.mul_le_mul_left _ (window_length_le _ _ _)))

theorem Pad_eq (h : Heap) (s : Slice) (b : List Byte) (hb : h[s.blk]? = some b)
    (h1 : wordSize ≤ s.off) (h2 : s.off ≤ b.length) :
    s.Pad h = some (((Uvarint (window b (s.off - wordSize) wordSize)).1 * wordSize : Nat) : Int) := by
  have hlt := Uvarint_window_lt b (s.off - wordSize)
  unfold Slice.Pad
  simp only [hb]
  rw [if_pos ⟨h1, h2⟩]
  generalize (Uvarint (window b (s.off - wordSize) wordSize)).1 = v at *
  unfold wordSize at hlt ⊢
  norm_num at hlt
  have e1 : toInt64 (v : Int) = v := toInt64_of_lt _ (by omega) (by omega)
  simp only [e1]
  rw [toInt64_of_lt _ (by omega) (by omega)]
  push_cast
  rfl

/-! ## Memory lemmas -/

theorem store_eq (h : Heap) (blk off : Nat) (w b : List Byte) (hb : h[blk]? = some b)
    (hfit : off + w.length ≤ b.length) :
    h.store blk off w = some (h.set blk (splice b off w)) := by
  unfold Heap.store
  simp only [hb]
  rw [if_pos hfit]

theorem get_set_same (h : Heap) (blk : Nat) (b c : List Byte) (hb : h[blk]? = some b) :
    (h.set blk c)[blk]? = some c := by
  have hlt : blk < h.length := by
    by_contra hc
    rw [List.getElem?_eq_none (by omega)] at hb
    exact Option.noConfusion hb
  simp [List.getElem?_set, hlt]

theorem get_set_other (h : Heap) (blk i : Nat) (c : List Byte) (hi : i ≠ blk) :
    (h.set blk c)[i]? = h[i]? := by
  simp [List.getElem?_set, Ne.symm hi]

theorem get_lt (h : Heap) (blk : Nat) (b : List Byte) (hb : h[blk]? = some b) :
    blk < h.length := by
  by_contra hc
  rw [List.getElem?_eq_none (by omega)] at hb
  exact Option.noConfusion hb

theorem bytes_eq (h : Heap) (s : Slice) (b : List Byte) (hb : h[s.blk]? = some b)
    (hfit : s.off + s.len ≤ b.length) : h.bytes s = some (window b s.off s.len) := by
  unfold Heap.bytes
  simp only [hb]
  rw [if_pos hfit]

theorem window_add (b : List Byte) (off n m : Nat) :
    window b off (n + m) = window b off n ++ window b (off + n) m := by
  apply List.ext_getElem?
  intro k
  have hl : (window b off n).length = min n (b.length - off) := by
    unfold window
    simp
  by_cases hk : k < (window b off n).length
  · rw [List.getElem?_append_left hk, window_getElem?, window_getElem?,
      if_pos (by omega), if_pos (by omega)]
  · rw [List.getElem?_append_right (by omega), window_getElem?, window_getElem?, hl]
    by_cases hn : n ≤ b.length - off
    · rw [Nat.min_eq_left hn] at hl ⊢
      rw [hl] at hk
      by_cases hkm : k < n + m
      · rw [if_pos hkm, if_pos (by omega)]
        congr 1
        omega
      · rw [if_neg hkm, if_neg (by omega)]
    · rw [Nat.min_eq_right (by omega)] at hl ⊢
      rw [hl] at hk
      rw [List.getElem?_eq_none (by omega)]
      split <;> split <;> first | rfl | (rw [List.getElem?_eq_none (by omega)])

theorem window_append_left (a c : List Byte) : window (a ++ c) 0 a.length = a := by
  unfold window
  simp

theorem window_append_right (a c : List Byte) (n : Nat) :
    window (a ++ c) a.length n = window c 0 n := by
  unfold window
  simp

theorem window_zero_append (a c : List Byte) (n : Nat) (hn : n ≤ a.length) :
    window (a ++ c) 0 n = window a 0 n := by
  unfold window
  simp [List.take_append_of_le_length hn]

/-- The bytes of a slice after an in-place append of `elems`. -/
theorem window_splice_tail (b : List Byte) (off len : Nat) (elems : List Byte)
    (hfit : off + len + elems.length ≤ b.length) :
    window (splice b (off + len) elems) off (len + elems.length) =
      window b off len ++ elems := by
  rw [window_add, window_splice_disjoint _ _ _ _ _ hfit (Or.inl (le_refl _)),
    window_splice_same _ _ _ hfit]

/-- The bytes of a slice after an in-place prepend of `elems`. -/
theorem window_splice_head (b : List Byte) (off len : Nat) (elems : List Byte)
    (hk : elems.length ≤ off) (hfit : off + len ≤ b.length) :
    window (splice b (off - elems.length) elems) (off - elems.length) (elems.length + len) =
      elems ++ window b off len := by
  have h1 : off - elems.length + elems.length ≤ b.length := by omega
  rw [window_add, window_splice_same _ _ _ h1,
    window_splice_disjoint _ _ _ _ _ h1 (Or.inr (le_refl _))]
  congr 2
  omega

theorem Uvarint_zeros : (Uvarint (List.replicate wordSize 0)).1 = 0 := by decide

/-! ## The built-in `append` -/

theorem goAppend_inplace (rt : Runtime) (h : Heap) (s : Slice) (elems b : List Byte)
    (hb : h[s.blk]? = some b) (hcap : s.off + s.cap ≤ b.length)
    (hfit : s.len + elems.length ≤ s.cap) :
    goAppend rt h s elems =
      some (h.set s.blk (splice b (s.off + s.len) elems),
        ⟨s.blk, s.off, s.len + elems.length, s.cap⟩) := by
  unfold goAppend
  rw [if_pos hfit, store_eq h _ _ _ b hb (by omega)]

theorem goAppend_grow (rt : Runtime) (h : Heap) (s : Slice) (elems b : List Byte)
    (hb : h[s.blk]? = some b) (hlen : s.off + s.len ≤ b.length)
    (hfit : s.cap < s.len + elems.length) :
    goAppend rt h s elems =
      some (h ++ [window b s.off s.len ++ elems ++
          List.replicate (rt.growCap s.cap (s.len + elems.length) - (s.len + elems.length)) 0],
        ⟨h.length, 0, s.len + elems.length, rt.growCap s.cap (s.len + elems.length)⟩) := by
  unfold goAppend
  rw [if_neg (by omega), bytes_eq h s b hb hlen]

/-- The outer `append(make([]byte, wordSize), content...)[wordSize:]` of both
reallocating branches, once the zero word `z` is block `zi` of the memory. -/
theorem outer_append (rt : Runtime) (h : Heap) (zi : Nat) (content : List Byte)
    (hz : h[zi]? = some (List.replicate wordSize 0)) (hne : content ≠ []) :
    goAppend rt h ⟨zi, 0, wordSize, wordSize⟩ content =
      some (h ++ [freshBlock rt content],
        ⟨h.length, 0, wordSize + content.length,
          rt.growCap wordSize (wordSize + content.length)⟩) := by
  have hpos : 0 < content.length := List.length_pos.2 hne
  rw [goAppend_grow rt h _ content _ hz (by simp) (by simp; omega)]
  simp only [freshBlock]
  rw [show window (List.replicate wordSize (0 : Byte)) 0 wordSize = List.replicate wordSize 0 from
    window_replicate _ _ _ _ (by omega)]

theorem freshBlock_length (rt : Runtime) (content : List Byte) :
    (freshBlock rt content).length = rt.growCap wordSize (wordSize + content.length) := by
  have := rt.le_growCap wordSize (wordSize + content.length)
  unfold freshBlock
  simp
  omega

theorem freshBlock_head (rt : Runtime) (content : List Byte) :
    window (freshBlock rt content) 0 wordSize = List.replicate wordSize 0 := by
  unfold freshBlock
  rw [List.append_assoc]
  have := window_append_left (List.replicate wordSize (0 : Byte))
    (content ++ List.replicate (rt.growCap wordSize (wordSize + content.length)
      - (wordSize + content.length)) 0)
  simpa using this

theorem freshBlock_content (rt : Runtime) (content : List Byte) :
    window (freshBlock rt content) wordSize content.length = content := by
  unfold freshBlock
  rw [List.append_assoc]
  have h1 := window_append_right (List.replicate wordSize (0 : Byte))
    (content ++ List.replicate (rt.growCap wordSize (wordSize + content.length)
      - (wordSize + content.length)) 0) content.length
  simp only [List.length_replicate] at h1
  rw [h1]
  exact window_append_left _ _

/-- The reallocating branch of `Append`, evaluated. -/
theorem Append_grow (rt : Runtime) (h : Heap) (s : Slice) (elems b : List Byte)
    (hb : h[s.blk]? = some b) (hlen : s.off + s.len ≤ b.length)
    (hfit : s.cap < s.len + elems.length) :
    ∃ tmp, s.Append rt h elems =
      some (h ++ [List.replicate wordSize 0] ++ [tmp] ++
          [freshBlock rt (window b s.off s.len ++ elems)],
        ⟨h.length + 2, wordSize, s.len + elems.length,
          rt.growCap wordSize (wordSize + (s.len + elems.length)) - wordSize⟩) := by
  have hblt := get_lt h _ _ hb
  have hwl : (window b s.off s.len).length = s.len := window_length _ _ _ hlen
  have hcl : (window b s.off s.len ++ elems).length = s.len + elems.length := by simp [hwl]
  have hne : window b s.off s.len ++ elems ≠ [] := by
    intro hnil
    have := congrArg List.length hnil
    rw [hcl, List.length_nil] at this
    omega
  set h1 := h ++ [List.replicate wordSize (0 : Byte)] with hh1
  have hb1 : h1[s.blk]? = some b := by rw [hh1, heap_get_old _ _ _ hblt, hb]
  set tmp := window b s.off s.len ++ elems ++
      List.replicate (rt.growCap s.cap (s.len + elems.length) - (s.len + elems.length)) 0
    with htmp
  set h2 := h1 ++ [tmp] with hh2
  have hz2 : h2[h.length]? = some (List.replicate wordSize 0) := by
    rw [hh2, heap_get_old _ _ _ (by simp [hh1]), hh1, heap_get_new]
  have ht2 : h2[h1.length]? = some tmp := by rw [hh2, heap_get_new]
  have hbt : h2.bytes ⟨h1.length, 0, s.len + elems.length,
      rt.growCap s.cap (s.len + elems.length)⟩ = some (window b s.off s.len ++ elems) := by
    have hle := rt.le_growCap s.cap (s.len + elems.length)
    rw [bytes_eq h2 _ tmp ht2 (by simp [htmp, hwl])]
    simp only [htmp, List.append_assoc]
    rw [← hcl, ← List.append_assoc]
    exact congrArg some (window_append_left _ _)
  refine ⟨tmp, ?_⟩
  unfold Slice.Append
  rw [if_pos hfit]
  simp only [goMake, le_refl, if_true, ← hh1]
  rw [goAppend_grow rt h1 s elems b hb1 hlen hfit]
  simp only [← htmp, ← hh2, hbt]
  rw [outer_append rt h2 h.length _ hz2 hne]
  simp only [Slice.sliceFrom, hcl]
  have hgc := rt.le_growCap wordSize (wordSize + (s.len + elems.length))
  rw [if_pos (by omega), slicePtr_pos _ _ _ (by omega)]
  simp [hh2, hh1]

/-- The reallocating branch of `Prepend`, evaluated. -/
theorem prependRealloc_eq (rt : Runtime) (h : Heap) (s : Slice) (elems b : List Byte)
    (hb : h[s.blk]? = some b) (hlen : s.off + s.len ≤ b.length) (hne : elems ≠ []) :
    prependRealloc rt h s elems =
      some (h ++ [List.replicate wordSize 0] ++ [freshBlock rt (elems ++ window b s.off s.len)],
        ⟨h.length + 1, wordSize, elems.length + s.len,
          rt.growCap wordSize (wordSize + (elems.length + s.len)) - wordSize⟩) := by
  have hblt := get_lt h _ _ hb
  have hwl : (window b s.off s.len).length = s.len := window_length _ _ _ hlen
  have hcl : (elems ++ window b s.off s.len).length = elems.length + s.len := by simp [hwl]
  set h1 := h ++ [List.replicate wordSize (0 : Byte)] with hh1
  have hb1 : h1[s.blk]? = some b := by rw [hh1, heap_get_old _ _ _ hblt, hb]
  have hz1 : h1[h.length]? = some (List.replicate wordSize 0) := by rw [hh1, heap_get_new]
  unfold prependRealloc
  simp only [goMake, le_refl, if_true, ← hh1]
  rw [bytes_eq h1 s b hb1 hlen]
  simp only []
  rw [outer_append rt h1 h.length _ hz1 (by simp [hne])]
  simp only [Slice.sliceFrom, hcl]
  have hgc := rt.le_growCap wordSize (wordSize + (elems.length + s.len))
  have hpos : 0 < elems.length := List.length_pos.2 hne
  rw [if_pos (by omega), slicePtr_pos _ _ _ (by omega)]
  simp [hh1]

/-! ## `Pad` on the results -/

theorem Pad_nonneg (h : Heap) (s : Slice) (p : Int) (hp : s.Pad h = some p) :
    0 ≤ p ∧ p % wordSize = 0 ∧ p < 2 ^ 59 := by
  unfold Slice.Pad at hp
  cases hb : h[s.blk]? with
  | none => simp [hb] at hp
  | some b =>
    simp only [hb] at hp
    split at hp
    · rename_i hc
      have := Pad_eq h s b hb hc.1 hc.2
      have hlt := Uvarint_window_lt b (s.off - wordSize)
      simp only [Option.some.injEq] at hp
      unfold Slice.Pad at this
      simp only [hb] at this
      rw [if_pos hc] at this
      simp only [Option.some.injEq] at this
      rw [this] at hp
      subst hp
      unfold wordSize at *
      norm_num at hlt
      push_cast
      omega
    · exact Option.noConfusion hp

/-- A slice that starts one word into a block whose first word is zero has no
padding. -/
theorem Pad_zero_word (h : Heap) (s : Slice) (b : List Byte) (hb : h[s.blk]? = some b)
    (hoff : s.off = wordSize) (hlen : wordSize ≤ b.length)
    (hz : window b 0 wordSize = List.replicate wordSize 0) : s.Pad h = some 0 := by
  rw [Pad_eq h s b hb (by omega) (by omega), hoff, Nat.sub_self, hz, Uvarint_zeros]
  rfl

theorem freshBlock_Pad (rt : Runtime) (h : Heap) (content : List Byte) (len cap : Nat) :
    Slice.Pad (h ++ [freshBlock rt content]) ⟨h.length, wordSize, len, cap⟩ = some 0 := by
  have hl := freshBlock_length rt content
  have hg := rt.le_growCap wordSize (wordSize + content.length)
  exact Pad_zero_word _ _ _ (heap_get_new h _) rfl (by omega) (freshBlock_head rt content)

theorem freshBlock_bytes (rt : Runtime) (h : Heap) (content : List Byte) (cap : Nat) :
    Heap.bytes (h ++ [freshBlock rt content]) ⟨h.length, wordSize, content.length, cap⟩ =
      some content := by
  have hl := freshBlock_length rt content
  have hg := rt.le_growCap wordSize (wordSize + content.length)
  rw [bytes_eq _ _ _ (heap_get_new h _) (by simp only []; omega)]
  exact congrArg some (freshBlock_content rt content)

/-! ## The layout invariant -/

theorem window_splice_inside (b : List Byte) (off : Nat) (w : List Byte) (o n : Nat)
    (h : off + w.length ≤ b.length) (hin : o + n ≤ w.length) :
    window (splice b off w) (off + o) n = window w o n := by
  have := window_window (splice b off w) off w.length o n hin
  rw [window_splice_same b off w h] at this
  exact this.symm

theorem Make_none_of_gt (h : Heap) (len cap pad : Nat) (hlc : cap < len) :
    Make h len cap pad = none := by
  unfold Make
  simp only [goMake]
  rw [if_neg (by omega)]

theorem Make_some_bounds (h h' : Heap) (len cap pad : Nat) (s : Slice)
    (hm : Make h len cap pad = some (h', s)) :
    len ≤ cap ∧ roundPad pad / wordSize < 2 ^ (7 * wordSize) := by
  constructor
  · by_contra hc
    rw [Make_none_of_gt h len cap pad (by omega)] at hm
    exact Option.noConfusion hm
  · by_contra hc
    rw [Make_none_of_large h len cap pad (by omega)] at hm
    exact Option.noConfusion hm

theorem Layout_Pad (h : Heap) (s : Slice) (hl : Layout h s) :
    s.Pad h = some ((s.off - wordSize : Nat) : Int) := by
  obtain ⟨⟨_, b, hb, hcap⟩, h8, hdvd, hw⟩ := hl
  rw [Pad_eq h s b hb h8 (by omega)]
  have e : s.off - wordSize = (s.off / wordSize - 1) * wordSize := by
    unfold wordSize at *
    omega
  have hj := hw b hb (s.off / wordSize - 1) (by unfold wordSize at *; omega)
  rw [← e] at hj
  rw [hj, ← e]

theorem Layout_Make (h h' : Heap) (len cap pad : Nat) (s : Slice) (hcap : 0 < cap)
    (hm : Make h len cap pad = some (h', s)) : Layout h' s := by
  obtain ⟨hlc, hp⟩ := Make_some_bounds h h' len cap pad s hm
  obtain ⟨blk, hm', hl, hw, _⟩ := Make_spec_pos h len cap pad hcap hlc hp
  rw [hm'] at hm
  simp only [Option.some.injEq, Prod.mk.injEq] at hm
  obtain ⟨e1, e2⟩ := hm
  subst e1 e2
  have hd := roundPad_dvd pad
  refine ⟨⟨hlc, blk, heap_get_new h blk, by simp only [hl]; omega⟩, by simp, ?_, ?_⟩
  · simp only []
    unfold wordSize at *
    omega
  · intro b hb j hj
    rw [heap_get_new] at hb
    simp only [Option.some.injEq] at hb
    subst hb
    exact hw j (by simp only [] at hj; unfold wordSize at *; omega)

theorem Layout_fresh (rt : Runtime) (h : Heap) (content : List Byte) :
    Layout (h ++ [freshBlock rt content])
      ⟨h.length, wordSize, content.length,
        rt.growCap wordSize (wordSize + content.length) - wordSize⟩ := by
  have hl := freshBlock_length rt content
  have hg := rt.le_growCap wordSize (wordSize + content.length)
  refine ⟨⟨by simp only []; omega, _, heap_get_new h _, by simp only []; omega⟩,
    le_refl _, by simp [wordSize], ?_⟩
  intro b hb j hj
  rw [heap_get_new] at hb
  simp only [Option.some.injEq] at hb
  subst hb
  have hj0 : j = 0 := by
    simp only [] at hj
    unfold wordSize at hj
    omega
  subst hj0
  rw [Nat.zero_mul, freshBlock_head, Uvarint_zeros]

theorem Layout_Append (rt : Runtime) (h h' : Heap) (s s' : Slice) (elems : List Byte)
    (hl : Layout h s) (ha : s.Append rt h elems = some (h', s')) : Layout h' s' := by
  obtain ⟨⟨hlc, b, hb, hcap⟩, h8, hdvd, hw⟩ := hl
  have hlen : s.off + s.len ≤ b.length := by omega
  by_cases hfit : s.cap < s.len + elems.length
  · obtain ⟨tmp, ha'⟩ := Append_grow rt h s elems b hb hlen hfit
    rw [ha'] at ha
    simp only [Option.some.injEq, Prod.mk.injEq] at ha
    obtain ⟨e1, e2⟩ := ha
    subst e1 e2
    have hwl : (window b s.off s.len).length = s.len := window_length _ _ _ hlen
    have hcl : (window b s.off s.len ++ elems).length = s.len + elems.length := by simp [hwl]
    have := Layout_fresh rt (h ++ [List.replicate wordSize 0] ++ [tmp])
      (window b s.off s.len ++ elems)
    rw [hcl] at this
    simpa using this
  · have hfit' : s.len + elems.length ≤ s.cap := by omega
    have ha' : s.Append rt h elems = goAppend rt h s elems := by
      unfold Slice.Append
      rw [if_neg hfit]
    rw [ha', goAppend_inplace rt h s elems b hb hcap hfit'] at ha
    simp only [Option.some.injEq, Prod.mk.injEq] at ha
    obtain ⟨e1, e2⟩ := ha
    subst e1 e2
    have hin : s.off + s.len + elems.length ≤ b.length := by omega
    have hsp : (splice b (s.off + s.len) elems).length = b.length := splice_length _ _ _ hin
    have hg := get_set_same h s.blk b (splice b (s.off + s.len) elems) hb
    refine ⟨⟨hfit', _, hg, by simp only [hsp]; exact hcap⟩, h8, hdvd, ?_⟩
    intro b' hb' j hj
    simp only [] at hb' hj
    rw [hg] at hb'
    simp only [Option.some.injEq] at hb'
    subst hb'
    rw [window_splice_disjoint _ _ _ _ _ hin (Or.inl (by unfold wordSize at *; omega))]
    exact hw b hb j hj

theorem Layout_prependInPlace (h h' : Heap) (s s' : Slice) (elems : List Byte)
    (hl : Layout h s) (hk : elems.length % wordSize = 0)
    (hle : elems.length + wordSize ≤ s.off)
    (ha : prependInPlace h s elems = some (h', s')) : Layout h' s' := by
  obtain ⟨⟨hlc, b, hb, hcap⟩, h8, hdvd, hw⟩ := hl
  have hin : s.off - elems.length + elems.length ≤ b.length := by omega
  unfold prependInPlace at ha
  simp only [] at ha
  rw [if_pos (by omega), List.take_of_length_le (by omega),
    store_eq h _ _ _ b hb hin] at ha
  simp only [Option.some.injEq, Prod.mk.injEq] at ha
  obtain ⟨e1, e2⟩ := ha
  subst e1 e2
  have hsp := splice_length b (s.off - elems.length) elems hin
  have hg := get_set_same h s.blk b (splice b (s.off - elems.length) elems) hb
  refine ⟨⟨by simp only []; omega, _, hg, by simp only [hsp]; omega⟩, by simp only []; omega,
    by simp only []; unfold wordSize at *; omega, ?_⟩
  intro b' hb' j hj
  simp only [] at hb' hj
  rw [hg] at hb'
  simp only [Option.some.injEq] at hb'
  subst hb'
  rw [window_splice_disjoint _ _ _ _ _ hin (Or.inl (by unfold wordSize at *; omega))]
  exact hw b hb j (by unfold wordSize at *; omega)

theorem Layout_Prepend (rt : Runtime) (h h' : Heap) (s s' : Slice) (elems : List Byte)
    (hl : Layout h s) (ha : s.Prepend rt h elems = some (h', s')) : Layout h' s' := by
  have hpad := Layout_Pad h s hl
  obtain ⟨⟨hlc, b, hb, hcap⟩, h8, hdvd, hw⟩ := hl
  have hlen : s.off + s.len ≤ b.length := by omega
  have hwl : (window b s.off s.len).length = s.len := window_length _ _ _ hlen
  have hslow : elems ≠ [] → prependRealloc rt h s elems = some (h', s') → Layout h' s' := by
    intro hne hr
    rw [prependRealloc_eq rt h s elems b hb hlen hne] at hr
    simp only [Option.some.injEq, Prod.mk.injEq] at hr
    obtain ⟨e1, e2⟩ := hr
    subst e1 e2
    have hcl : (elems ++ window b s.off s.len).length = elems.length + s.len := by simp [hwl]
    have := Layout_fresh rt (h ++ [List.replicate wordSize 0]) (elems ++ window b s.off s.len)
    rw [hcl] at this
    simpa using this
  unfold Slice.Prepend at ha
  simp only [] at ha
  by_cases hm : elems.length % wordSize ≠ 0
  · rw [if_pos hm] at ha
    exact hslow (by intro hnil; subst hnil; simp at hm) ha
  · rw [if_neg hm] at ha
    simp only [hpad] at ha
    by_cases hlt : ((s.off - wordSize : Nat) : Int) < (elems.length : Int)
    · rw [if_pos hlt] at ha
      exact hslow (by intro hnil; subst hnil; simp at hlt; omega) ha
    · rw [if_neg hlt] at ha
      have hle : elems.length + wordSize ≤ s.off := by omega
      exact Layout_prependInPlace h h' s s' elems ⟨⟨hlc, b, hb, hcap⟩, h8, hdvd, hw⟩
        (by omega) hle ha

/-! ## `realloc` and the pool -/

theorem initPadding_spec (h : Heap) (hd : Slice) (b : List Byte) (hb : h[hd.blk]? = some b)
    (hin : hd.off + hd.len ≤ b.length) (hdvd : hd.len % wordSize = 0)
    (hp : hd.len / wordSize ≤ 2 ^ (7 * wordSize)) :
    ∃ w, initPadding h hd = some (h.set hd.blk (splice b hd.off w)) ∧ w.length = hd.len ∧
      ∀ j, j < hd.len / wordSize → (Uvarint (window w (j * wordSize) wordSize)).1 = j := by
  have hwl : (window b hd.off hd.len).length = hd.len := window_length _ _ _ hin
  have hmul : (0 + hd.len / wordSize) * wordSize ≤ (window b hd.off hd.len).length := by
    rw [hwl]
    unfold wordSize at *
    omega
  obtain ⟨w, hw⟩ := initPaddingLoop_some (hd.len / wordSize) 0 (window b hd.off hd.len) hmul
    (by omega)
  obtain ⟨h1, h2, _⟩ := initPaddingLoop_spec _ _ _ _ hmul hw
  refine ⟨w, ?_, by rw [h1, hwl], fun j hj => h2 j (Nat.zero_le _) (by omega)⟩
  unfold initPadding
  rw [bytes_eq h hd b hb hin]
  simp only [hw]
  exact store_eq h _ _ _ b hb (by rw [h1, hwl]; exact hin)

theorem realloc_spec (h : Heap) (B : Slice) (len cap P : Nat) (b : List Byte)
    (hb : h[B.blk]? = some b) (hv : B.off + B.cap ≤ b.length) (hdvd : P % wordSize = 0)
    (hfit : P + wordSize + cap ≤ B.cap) (hlc : len ≤ cap)
    (hp : P / wordSize < 2 ^ (7 * wordSize)) :
    ∃ w, realloc h B len cap P =
        some (h.set B.blk (splice b B.off w),
          ⟨B.blk, slicePtr B.off (P + wordSize) cap, len, cap⟩) ∧
      w.length = P + wordSize ∧
      ∀ j, j ≤ P / wordSize → (Uvarint (window w (j * wordSize) wordSize)).1 = j := by
  have hn : (P + wordSize) / wordSize = P / wordSize + 1 := by unfold wordSize at *; omega
  obtain ⟨w, hw, hwl, hwd⟩ := initPadding_spec h ⟨B.blk, B.off, P + wordSize, B.cap⟩ b hb
    (by simp only []; omega) (by simp only []; unfold wordSize at *; omega)
    (by simp only []; omega)
  refine ⟨w, ?_, hwl, fun j hj => hwd j (by simp only []; omega)⟩
  unfold realloc
  simp only [Slice.sliceTo, Slice.slice3]
  rw [if_pos (by omega)]
  simp only [hw]
  rw [if_pos ⟨by omega, by omega, by omega⟩]
  simp

theorem realloc_spec_pos (h : Heap) (B : Slice) (len cap P : Nat) (b : List Byte)
    (hb : h[B.blk]? = some b) (hv : B.off + B.cap ≤ b.length) (hdvd : P % wordSize = 0)
    (hfit : P + wordSize + cap ≤ B.cap) (hcap : 0 < cap) (hlc : len ≤ cap)
    (hp : P / wordSize < 2 ^ (7 * wordSize)) :
    ∃ w, realloc h B len cap P =
        some (h.set B.blk (splice b B.off w), ⟨B.blk, B.off + (P + wordSize), len, cap⟩) ∧
      w.length = P + wordSize ∧
      ∀ j, j ≤ P / wordSize → (Uvarint (window w (j * wordSize) wordSize)).1 = j := by
  have := realloc_spec h B len cap P b hb hv hdvd hfit hlc hp
  rw [slicePtr_pos _ _ _ hcap] at this
  exact this

theorem realloc_none_of_large (h : Heap) (B : Slice) (len cap P : Nat)
    (hdvd : P % wordSize = 0) (hp : 2 ^ (7 * wordSize) ≤ P / wordSize) :
    realloc h B len cap P = none := by
  have hn : (P + wordSize) / wordSize = P / wordSize + 1 := by unfold wordSize at *; omega
  unfold realloc
  simp only [Slice.sliceTo]
  by_cases hc : P + wordSize ≤ B.cap
  · rw [if_pos hc]
    simp only [initPadding]
    cases hbs : Heap.bytes h { blk := B.blk, off := B.off, len := P + wordSize, cap := B.cap } with
    | none => rfl
    | some bytes =>
      simp only [hn]
      rw [initPaddingLoop_none _ _ _ (Nat.zero_le _) (by omega)]
  · rw [if_neg hc]

theorem realloc_none_of_gt (h : Heap) (B : Slice) (len cap P : Nat) (hlc : cap < len) :
    realloc h B len cap P = none := by
  unfold realloc
  simp only [Slice.slice3]
  rw [if_neg (by omega)]
  split
  · rfl
  · split <;> rfl

theorem Pool_get_some (p : Pool) (i min : Nat) (B : Slice) (hB : p.items[i]? = some B)
    (hmin : min ≤ B.len) : p.get (some i) min = (⟨p.items.eraseIdx i⟩, some B) := by
  unfold Pool.get
  simp only [hB]
  rw [if_pos hmin]

theorem Pool_get_short (p : Pool) (i min : Nat) (B : Slice) (hB : p.items[i]? = some B)
    (hmin : B.len < min) : p.get (some i) min = (⟨p.items.eraseIdx i⟩, none) := by
  unfold Pool.get
  simp only [hB]
  rw [if_neg (by omega)]

theorem Pool_get_nil (p : Pool) (min : Nat) : p.get none min = (p, none) := rfl

theorem Pool_put_eq (p : Pool) (s : Slice) : (⟨s :: p.items⟩ : Pool) = p.put s := rfl

theorem Pool_get_cases (p : Pool) (pick : Option Nat) (min : Nat) :
    (∃ p', p.get pick min = (p', none)) ∨
      ∃ i B, pick = some i ∧ p.items[i]? = some B ∧ min ≤ B.len ∧
        p.get pick min = (⟨p.items.eraseIdx i⟩, some B) := by
  cases pick with
  | none => exact Or.inl ⟨p, rfl⟩
  | some i =>
    cases hB : p.items[i]? with
    | none =>
      left
      refine ⟨p, ?_⟩
      unfold Pool.get
      simp only [hB]
    | some B =>
      by_cases hmin : min ≤ B.len
      · exact Or.inr ⟨i, B, rfl, hB, hmin, Pool_get_some p i min B hB hmin⟩
      · exact Or.inl ⟨_, Pool_get_short p i min B hB (by omega)⟩

theorem realloc_none_of_short (h : Heap) (B : Slice) (len cap P : Nat)
    (hs : B.cap < P + wordSize + cap) : realloc h B len cap P = none := by
  unfold realloc
  simp only [Slice.slice3]
  rw [if_neg (by omega)]
  split
  · rfl
  · split <;> rfl

theorem realloc_some_bounds (h h' : Heap) (B s : Slice) (len cap P : Nat)
    (hdvd : P % wordSize = 0) (hr : realloc h B len cap P = some (h', s)) :
    len ≤ cap ∧ P + wordSize + cap ≤ B.cap ∧ P / wordSize < 2 ^ (7 * wordSize) := by
  refine ⟨?_, ?_, ?_⟩
  · by_contra hc
    rw [realloc_none_of_gt h B len cap P (by omega)] at hr
    exact Option.noConfusion hr
  · by_contra hc
    rw [realloc_none_of_short h B len cap P (by omega)] at hr
    exact Option.noConfusion hr
  · by_contra hc
    rw [realloc_none_of_large h B len cap P hdvd (by omega)] at hr
    exact Option.noConfusion hr

theorem Layout_realloc (h h' : Heap) (B s : Slice) (len cap P : Nat) (hB : h.spare B)
    (hcap : 0 < cap)
    (hdvd : P % wordSize = 0) (hr : realloc h B len cap P = some (h', s)) : Layout h' s := by
  obtain ⟨hlc, hfit, hp⟩ := realloc_some_bounds h h' B s len cap P hdvd hr
  obtain ⟨⟨_, b, hb, hv⟩, hoff⟩ := hB
  obtain ⟨w, hw, hwl, hwd⟩ := realloc_spec_pos h B len cap P b hb hv hdvd hfit hcap hlc hp
  rw [hw] at hr
  simp only [Option.some.injEq, Prod.mk.injEq] at hr
  obtain ⟨e1, e2⟩ := hr
  subst e1 e2
  have hin : B.off + w.length ≤ b.length := by omega
  have hsp := splice_length b B.off w hin
  have hg := get_set_same h B.blk b (splice b B.off w) hb
  refine ⟨⟨hlc, _, hg, by simp only [hsp]; omega⟩, by simp only []; omega,
    by simp only []; unfold wordSize at *; omega, ?_⟩
  intro b' hb' j hj
  simp only [] at hb' hj
  rw [hg] at hb'
  simp only [Option.some.injEq] at hb'
  subst hb'
  have := window_splice_inside b B.off w (j * wordSize) wordSize hin
    (by rw [hwl]; unfold wordSize at *; omega)
  rw [hoff, Nat.zero_add] at this
  rw [hoff, this]
  exact hwd j (by rw [hoff] at hj; unfold wordSize at *; omega)

theorem Layout_PoolMake (p p' : Pool) (h h' : Heap) (pick : Option Nat) (len cap pad : Nat)
    (s : Slice) (hcap : 0 < cap) (hpool : ∀ B ∈ p.items, h.spare B)
    (hm : Pool.Make p h pick len cap pad = some (p', h', s)) : Layout h' s := by
  unfold Pool.Make at hm
  simp only [] at hm
  rcases Pool_get_cases p pick (roundPad pad + cap + wordSize) with ⟨q, hg⟩ | ⟨i, B, _, hB, _, hg⟩
  · rw [hg] at hm
    simp only [] at hm
    cases hmk : Make h len cap (roundPad pad) with
    | none => simp [hmk] at hm
    | some r =>
      obtain ⟨h1, s1⟩ := r
      simp only [hmk, Option.some.injEq, Prod.mk.injEq] at hm
      obtain ⟨_, e1, e2⟩ := hm
      subst e1 e2
      exact Layout_Make h h1 len cap (roundPad pad) s1 hcap hmk
  · rw [hg] at hm
    simp only [] at hm
    cases hre : realloc h B len cap (roundPad pad) with
    | none => simp [hre] at hm
    | some r =>
      obtain ⟨h1, s1⟩ := r
      simp only [hre, Option.some.injEq, Prod.mk.injEq] at hm
      obtain ⟨_, e1, e2⟩ := hm
      subst e1 e2
      exact Layout_realloc h h1 B s1 len cap (roundPad pad)
        (hpool B (List.getElem?_mem hB)) hcap (roundPad_dvd pad) hre

theorem Layout_keeps (h h' : Heap) (s : Slice) (hl : Layout h s) (hk : h.keeps h' s) :
    Layout h' s := by
  obtain ⟨⟨hlc, b, hb, hcap⟩, h8, hdvd, hw⟩ := hl
  obtain ⟨b', hb', hlen, hpre⟩ := hk b hb
  refine ⟨⟨hlc, b', hb', by omega⟩, h8, hdvd, ?_⟩
  intro c hc j hj
  rw [hb'] at hc
  simp only [Option.some.injEq] at hc
  subst hc
  have hin : j * wordSize + wordSize ≤ s.off := by
    unfold wordSize at *
    omega
  have e1 := window_window b' 0 s.off (j * wordSize) wordSize hin
  have e2 := window_window b 0 s.off (j * wordSize) wordSize hin
  rw [Nat.zero_add] at e1 e2
  rw [← e1, hpre, e2]
  exact hw b hb j hj

/-- Every slice of a program that requests capacities above 0 has the layout. -/
theorem Reachable_Layout (rt : Runtime) (h : Heap) (s : Slice) (hr : Reachable rt h s) :
    Layout h s := by
  induction hr with
  | other _ hk ih => exact Layout_keeps _ _ _ ih hk
  | make len cap pad hcap hm => exact Layout_Make _ _ len cap pad _ hcap hm
  | poolMake pick len cap pad hcap hpool hm =>
    exact Layout_PoolMake _ _ _ _ pick len cap pad _ hcap hpool hm
  | append elems _ ha ih => exact Layout_Append rt _ _ _ _ elems ih ha
  | prepend elems _ ha ih => exact Layout_Prepend rt _ _ _ _ elems ih ha

theorem roundPad_idem (pad : Nat) : roundPad (roundPad pad) = roundPad pad :=
  roundPad_of_dvd _ (roundPad_dvd pad)

theorem Make_roundPad (h : Heap) (len cap pad : Nat) :
    Make h len cap (roundPad pad) = Make h len cap pad := by
  unfold Make
  rw [roundPad_idem]

/-- What `realloc` returns on a spare block that is long enough: a view over that
block, of the length and capacity asked for; no block is allocated. -/
theorem realloc_view (h : Heap) (B : Slice) (len cap P : Nat) (hv : h.valid B)
    (hdvd : P % wordSize = 0) (hfit : P + wordSize + cap ≤ B.cap) (hlc : len ≤ cap)
    (hp : P / wordSize < 2 ^ (7 * wordSize)) :
    ∃ h', realloc h B len cap P =
        some (h', ⟨B.blk, slicePtr B.off (P + wordSize) cap, len, cap⟩) ∧
      h'.length = h.length := by
  obtain ⟨_, b, hb, hcap⟩ := hv
  obtain ⟨w, hw, _, _⟩ := realloc_spec h B len cap P b hb hcap hdvd hfit hlc hp
  exact ⟨_, hw, by simp⟩

/-- What `realloc` returns for a capacity above 0 on a spare block that is long
enough: the view `roundPad pad + wordSize` bytes into the block, with that
padding. -/
theorem realloc_result (h : Heap) (B : Slice) (len cap P : Nat) (hv : h.valid B)
    (hdvd : P % wordSize = 0) (hfit : P + wordSize + cap ≤ B.cap) (hcap0 : 0 < cap)
    (hlc : len ≤ cap) (hp : P / wordSize < 2 ^ (7 * wordSize)) :
    ∃ h', realloc h B len cap P = some (h', ⟨B.blk, B.off + (P + wordSize), len, cap⟩) ∧
      h'.length = h.length ∧
      Slice.Pad h' ⟨B.blk, B.off + (P + wordSize), len, cap⟩ = some (P : Int) := by
  obtain ⟨_, b, hb, hcap⟩ := hv
  obtain ⟨w, hw, hwl, hwd⟩ := realloc_spec_pos h B len cap P b hb hcap hdvd hfit hcap0 hlc hp
  have hin : B.off + w.length ≤ b.length := by omega
  have hsp := splice_length b B.off w hin
  have hg := get_set_same h B.blk b (splice b B.off w) hb
  refine ⟨_, hw, by simp, ?_⟩
  rw [Pad_eq _ ⟨B.blk, B.off + (P + wordSize), len, cap⟩ _ hg (by simp only []; omega)
    (by simp only [hsp]; omega)]
  simp only []
  have e1 : B.off + (P + wordSize) - wordSize = B.off + P / wordSize * wordSize := by
    unfold wordSize at *
    omega
  have e2 : P / wordSize * wordSize = P := by
    unfold wordSize at *
    omega
  rw [e1, window_splice_inside b B.off w _ _ hin (by rw [hwl]; unfold wordSize at *; omega),
    hwd _ (le_refl _), e2]

theorem Free_Layout (p : Pool) (h : Heap) (s : Slice) (hl : Layout h s) :
    Pool.Free p h s = some (p.put ⟨s.blk, 0, s.cap + s.off, s.cap + s.off⟩) := by
  have hpad := Layout_Pad h s hl
  have hlt := (Pad_nonneg h s _ hpad).2.2
  obtain ⟨_, h8, _, _⟩ := hl
  have e : toInt64 (((s.off - wordSize : Nat) : Int) + (wordSize : Int)) = (s.off : Int) := by
    rw [toInt64_of_lt _ (by omega) (by unfold wordSize at *; omega)]
    omega
  unfold Pool.Free
  simp only [hpad, e]
  rw [if_pos ⟨by omega, le_refl _⟩]
  simp

/-- The reallocating branch of `Prepend` is taken for a misaligned `elems` and
for one longer than the padding. -/
theorem Prepend_grow (rt : Runtime) (h : Heap) (s : Slice) (elems b : List Byte)
    (hb : h[s.blk]? = some b) (hlen : s.off + s.len ≤ b.length)
    (hc : elems.length % wordSize ≠ 0 ∨ ∃ p, s.Pad h = some p ∧ p < (elems.length : Int)) :
    s.Prepend rt h elems =
      some (h ++ [List.replicate wordSize 0] ++ [freshBlock rt (elems ++ window b s.off s.len)],
        ⟨h.length + 1, wordSize, elems.length + s.len,
          rt.growCap wordSize (wordSize + (elems.length + s.len)) - wordSize⟩) := by
  have hne : elems ≠ [] := by
    intro hnil
    subst hnil
    rcases hc with hc | ⟨p, hp, hlt⟩
    · simp at hc
    · have := (Pad_nonneg h s p hp).1
      simp at hlt
      omega
  rw [← prependRealloc_eq rt h s elems b hb hlen hne]
  unfold Slice.Prepend
  simp only []
  by_cases hm : elems.length % wordSize ≠ 0
  · rw [if_pos hm]
  · rw [if_neg hm]
    rcases hc with hc | ⟨p, hp, hlt⟩
    · exact absurd hc hm
    · simp only [hp]
      rw [if_pos hlt]

/-- What `Make` returns for a capacity above 0 when the padding words can be
numbered. -/
theorem Make_result (h : Heap) (len cap pad : Nat) (hcap : 0 < cap) (hlc : len ≤ cap)
    (hp : roundPad pad / wordSize < 2 ^ (7 * wordSize)) :
    ∃ h' s, Make h len cap pad = some (h', s) ∧ s.len = len ∧ s.cap = cap ∧
      s.Pad h' = some (roundPad pad : Int) := by
  obtain ⟨blk, hm, hl, hw, _⟩ := Make_spec_pos h len cap pad hcap hlc hp
  refine ⟨_, _, hm, rfl, rfl, ?_⟩
  have hd := roundPad_dvd pad
  rw [Pad_eq _ _ blk (heap_get_new h blk) (by simp) (by simp [hl])]
  simp only [Nat.add_sub_cancel]
  have e : roundPad pad = roundPad pad / wordSize * wordSize := by
    unfold wordSize at *
    omega
  have hw' := hw _ (le_refl _)
  rw [← e] at hw'
  rw [hw', ← e]

theorem PoolMake_fresh (p q : Pool) (h : Heap) (pick : Option Nat) (len cap pad : Nat)
    (hg : p.get pick (roundPad pad + cap + wordSize) = (q, none)) :
    Pool.Make p h pick len cap pad = (Make h len cap pad).map (fun r => (q, r.1, r.2)) := by
  unfold Pool.Make
  simp only [hg, Make_roundPad]
  cases Make h len cap pad with
  | none => rfl
  | some r => rfl

theorem PoolMake_reuse (p q : Pool) (h : Heap) (pick : Option Nat) (len cap pad : Nat)
    (B : Slice) (hg : p.get pick (roundPad pad + cap + wordSize) = (q, some B)) :
    Pool.Make p h pick len cap pad =
      (realloc h B len cap (roundPad pad)).map (fun r => (q, r.1, r.2)) := by
  unfold Pool.Make
  simp only [hg]
  cases realloc h B len cap (roundPad pad) with
  | none => rfl
  | some r => rfl

/-- The call `Append` on a slice of the layout: it returns, the result has the layout and
does not start further back in its block than `s` in its own. -/
theorem Append_Layout_total (rt : Runtime) (h : Heap) (s : Slice) (elems : List Byte)
    (hl : Layout h s) :
    ∃ h' s', s.Append rt h elems = some (h', s') ∧ Layout h' s' ∧ s'.off ≤ s.off := by
  obtain ⟨⟨hlc, b, hb, hcap⟩, h8, hdvd, hw⟩ := hl
  have hlen : s.off + s.len ≤ b.length := by omega
  by_cases hfit : s.cap < s.len + elems.length
  · obtain ⟨tmp, ha⟩ := Append_grow rt h s elems b hb hlen hfit
    exact ⟨_, _, ha, Layout_Append rt h _ s _ elems ⟨⟨hlc, b, hb, hcap⟩, h8, hdvd, hw⟩ ha, h8⟩
  · have ha : s.Append rt h elems = goAppend rt h s elems := by
      unfold Slice.Append
      rw [if_neg hfit]
    rw [goAppend_inplace rt h s elems b hb hcap (by omega)] at ha
    exact ⟨_, _, ha, Layout_Append rt h _ s _ elems ⟨⟨hlc, b, hb, hcap⟩, h8, hdvd, hw⟩ ha,
      le_refl _⟩

/-- The in-place branch of `Prepend` on a slice of the layout, evaluated. -/
theorem Prepend_in_place_eq (rt : Runtime) (h : Heap) (s : Slice) (elems b : List Byte)
    (hl : Layout h s) (hb : h[s.blk]? = some b) (hk : elems.length % wordSize = 0)
    (hle : elems.length + wordSize ≤ s.off) :
    s.Prepend rt h elems =
      some (h.set s.blk (splice b (s.off - elems.length) elems),
        ⟨s.blk, s.off - elems.length, s.len + elems.length, s.cap + elems.length⟩) := by
  have hpad := Layout_Pad h s hl
  obtain ⟨⟨hlc, b', hb', hcap⟩, h8, hdvd, hw⟩ := hl
  rw [hb] at hb'
  simp only [Option.some.injEq] at hb'
  subst hb'
  have hin : s.off - elems.length + elems.length ≤ b.length := by omega
  unfold Slice.Prepend
  simp only []
  rw [if_neg (by omega)]
  simp only [hpad]
  rw [if_neg (by omega)]
  unfold prependInPlace
  simp only []
  rw [if_pos (by omega), List.take_of_length_le (by omega), store_eq h _ _ _ b hb hin]

/-- The call `Prepend` on a slice of the layout: it returns, the result has the layout;
an aligned `elems` within the padding is written in front of `s` in the block of
`s`, whose other bytes are kept, anything else goes one word into a new block. -/
theorem Prepend_Layout_total (rt : Runtime) (h : Heap) (s : Slice) (elems : List Byte)
    (hl : Layout h s) :
    ∃ h' s', s.Prepend rt h elems = some (h', s') ∧ Layout h' s' ∧ s'.off ≤ s.off ∧
      ((elems.length % wordSize = 0 ∧ elems.length + wordSize ≤ s.off) →
        s'.blk = s.blk ∧ s'.off + elems.length = s.off ∧
        ∃ b b', h[s.blk]? = some b ∧ h'[s.blk]? = some b' ∧
          ∀ o n, o + n ≤ s'.off ∨ s.off ≤ o → window b' o n = window b o n) ∧
      (¬ (elems.length % wordSize = 0 ∧ elems.length + wordSize ≤ s.off) →
        h.length ≤ s'.blk ∧ s'.off = wordSize) := by
  have hpad := Layout_Pad h s hl
  have hl' := hl
  obtain ⟨⟨hlc, b, hb, hcap⟩, h8, hdvd, hw⟩ := hl
  have hlen : s.off + s.len ≤ b.length := by omega
  by_cases hc : elems.length % wordSize = 0 ∧ elems.length + wordSize ≤ s.off
  · have hp := Prepend_in_place_eq rt h s elems b hl' hb hc.1 hc.2
    have hin : s.off - elems.length + elems.length ≤ b.length := by omega
    refine ⟨_, _, hp, Layout_Prepend rt h _ s _ elems hl' hp, Nat.sub_le _ _,
      fun _ => ⟨rfl, by simp only []; omega, b, _, hb, get_set_same h s.blk b _ hb, ?_⟩,
      fun hn => absurd hc hn⟩
    intro o n hon
    simp only [] at hon
    exact window_splice_disjoint _ _ _ _ _ hin (by omega)
  · have hcond : elems.length % wordSize ≠ 0 ∨
        ∃ p, s.Pad h = some p ∧ p < (elems.length : Int) := by
      by_cases hm : elems.length % wordSize = 0
      · exact Or.inr ⟨_, hpad, by have : ¬ elems.length + wordSize ≤ s.off := fun hx => hc ⟨hm, hx⟩; omega⟩
      · exact Or.inl hm
    have hp := Prepend_grow rt h s elems b hb hlen hcond
    refine ⟨_, _, hp, Layout_Prepend rt h _ s _ elems hl' hp, h8, fun hy => absurd hy hc,
      fun _ => ⟨by simp only []; omega, rfl⟩⟩

/-- Every slice derived from a slice of the layout has the layout and starts no
further back in its block. -/
theorem Derived_Layout (rt : Runtime) (h h' : Heap) (s s' : Slice) (hl : Layout h s)
    (hd : Derived rt h s h' s') : Layout h' s' ∧ s'.off ≤ s.off := by
  induction hd with
  | refl => exact ⟨hl, le_refl _⟩
  | @append h1 h2 s1 s2 elems _ ha ih =>
    obtain ⟨h3, s3, ha', hl3, hle⟩ := Append_Layout_total rt h1 s1 elems ih.1
    rw [ha'] at ha
    simp only [Option.some.injEq, Prod.mk.injEq] at ha
    obtain ⟨e1, e2⟩ := ha
    subst e1 e2
    exact ⟨hl3, le_trans hle ih.2⟩
  | @prepend h1 h2 s1 s2 elems _ ha ih =>
    obtain ⟨h3, s3, ha', hl3, hle, _⟩ := Prepend_Layout_total rt h1 s1 elems ih.1
    rw [ha'] at ha
    simp only [Option.some.injEq, Prod.mk.injEq] at ha
    obtain ⟨e1, e2⟩ := ha
    subst e1 e2
    exact ⟨hl3, le_trans hle ih.2⟩

/-! ## Words that hold a varint -/

theorem PutUvarint_idem : ∀ (buf : List Byte) (x : Nat) (buf' : List Byte) (k : Nat),
    PutUvarint buf x = some (buf', k) → PutUvarint buf' x = some (buf', k) := by
  intro buf
  induction buf with
  | nil => intro x buf' k h; simp [PutUvarint] at h
  | cons b rest ih =>
    intro x buf' k h
    unfold PutUvarint at h
    by_cases h128 : 0x80 ≤ x
    · rw [if_pos h128] at h
      cases hr : PutUvarint rest (x >>> 7) with
      | none => simp [hr] at h
      | some r =>
        obtain ⟨r1, n⟩ := r
        simp only [hr, Option.some.injEq, Prod.mk.injEq] at h
        obtain ⟨e1, e2⟩ := h
        subst e1 e2
        unfold PutUvarint
        rw [if_pos h128, ih _ _ _ hr]
    · rw [if_neg h128] at h
      simp only [Option.some.injEq, Prod.mk.injEq] at h
      obtain ⟨e1, e2⟩ := h
      subst e1 e2
      unfold PutUvarint
      rw [if_neg h128]

theorem holdsUvarint_of_PutUvarint (buf buf' : List Byte) (x k : Nat)
    (h : PutUvarint buf x = some (buf', k)) : holdsUvarint buf' x := by
  unfold holdsUvarint
  rw [PutUvarint_idem buf x buf' k h]
  rfl

/-- A word that holds the varint of `n` decodes to `n`. -/
theorem Uvarint_of_holds (w : List Byte) (n : Nat) (hlen : w.length ≤ 9)
    (h : holdsUvarint w n) : (Uvarint w).1 = n := by
  unfold holdsUvarint at h
  cases hp : PutUvarint w n with
  | none => simp [hp] at h
  | some r =>
    obtain ⟨w', k⟩ := r
    simp only [hp, Option.map_some', Option.some.injEq] at h
    have := Uvarint_PutUvarint w w' n k hlen hp
    rw [h] at this
    rw [this]

theorem initPaddingLoop_holds : ∀ (n i : Nat) (s s' : List Byte),
    (i + n) * wordSize ≤ s.length → initPaddingLoop n i s = some s' →
    ∀ j, i ≤ j → j < i + n → holdsUvarint (window s' (j * wordSize) wordSize) j := by
  intro n
  induction n with
  | zero => intro i s s' _ _ j h1 h2; omega
  | succ n ih =>
    intro i s s' hlen h j hj1 hj2
    have hlen' := hlen
    unfold wordSize at hlen
    have hwl : (window s (i * wordSize) wordSize).length = 8 :=
      window_length _ _ _ (by unfold wordSize; omega)
    have hall := h
    unfold initPaddingLoop at h
    simp only [] at h
    cases hp : PutUvarint (window s (i * wordSize) wordSize) i with
    | none => simp [hp] at h
    | some r =>
      obtain ⟨w, k⟩ := r
      simp only [hp] at h
      have hw : w.length = 8 := by rw [PutUvarint_length _ _ _ _ hp, hwl]
      have hfit : i * wordSize + w.length ≤ s.length := by unfold wordSize; omega
      have hsl : (splice s (i * wordSize) w).length = s.length := splice_length _ _ _ hfit
      have hlen1 : (i + 1 + n) * wordSize ≤ (splice s (i * wordSize) w).length := by
        rw [hsl]; unfold wordSize; omega
      by_cases hji : j = i
      · subst hji
        obtain ⟨_, _, h3⟩ := initPaddingLoop_spec n (j + 1) _ s' hlen1 h
        rw [h3 _ _ (Or.inl (by unfold wordSize; omega))]
        have := window_splice_same s (j * wordSize) w hfit
        rw [hw] at this
        rw [show wordSize = 8 from rfl] at this ⊢
        rw [this]
        exact holdsUvarint_of_PutUvarint _ _ _ _ hp
      · exact ih (i + 1) _ s' hlen1 h j (by omega) (by omega)

/-- The block `Make` builds: the zeroed allocation with the result of the
`initPadding` loop in its first `roundPad pad + wordSize` bytes. -/
theorem Make_eval (h : Heap) (len cap pad : Nat) (hlc : len ≤ cap)
    (hp : roundPad pad / wordSize < 2 ^ (7 * wordSize)) :
    ∃ s', initPaddingLoop (roundPad pad / wordSize + 1) 0
          (List.replicate (roundPad pad + wordSize) 0) = some s' ∧
      s'.length = roundPad pad + wordSize ∧
      Make h len cap pad =
        some (h ++ [s' ++ List.replicate cap 0],
          ⟨h.length, slicePtr 0 (roundPad pad + wordSize) cap, len, cap⟩) := by
  have hdvd := roundPad_dvd pad
  generalize hP : roundPad pad = P at *
  set z : List Byte := List.replicate (P + wordSize + cap) 0 with hz
  have hzl : z.length = P + wordSize + cap := by simp [hz]
  have hwz : window z 0 (P + wordSize) = List.replicate (P + wordSize) 0 :=
    window_replicate _ _ _ _ (by omega)
  have hn : (P + wordSize) / wordSize = P / wordSize + 1 := by unfold wordSize at *; omega
  have hmul : (P / wordSize + 1) * wordSize = P + wordSize := by unfold wordSize at *; omega
  obtain ⟨s', hs'⟩ := initPaddingLoop_some (P / wordSize + 1) 0
    (List.replicate (P + wordSize) 0) (by simp [hmul]) (by omega)
  obtain ⟨h1, _, _⟩ := initPaddingLoop_spec _ _ _ _ (by simp [hmul]) hs'
  simp only [List.length_replicate] at h1
  have hfit : 0 + s'.length ≤ z.length := by rw [h1, hzl]; omega
  have hgm : goMake h (P + wordSize + len) (P + wordSize + cap) =
      some (h ++ [z], ⟨h.length, 0, P + wordSize + len, P + wordSize + cap⟩) := by
    unfold goMake
    rw [if_pos (by omega)]
  have hst : Slice.sliceTo ⟨h.length, 0, P + wordSize + len, P + wordSize + cap⟩ (P + wordSize) =
      some ⟨h.length, 0, P + wordSize, P + wordSize + cap⟩ := by
    unfold Slice.sliceTo
    rw [if_pos (by simp)]
  have hip : initPadding (h ++ [z]) ⟨h.length, 0, P + wordSize, P + wordSize + cap⟩ =
      some (h ++ [splice z 0 s']) := by
    unfold initPadding Heap.bytes Heap.store
    simp only [heap_get_new]
    rw [if_pos (by omega)]
    simp only [hn, hwz, hs']
    rw [if_pos hfit, heap_set_new]
  have hs3 : Slice.slice3 ⟨h.length, 0, P + wordSize + len, P + wordSize + cap⟩ (P + wordSize)
      (P + wordSize + len) (P + wordSize + cap) =
        some ⟨h.length, slicePtr 0 (P + wordSize) cap, len, cap⟩ := by
    unfold Slice.slice3
    rw [if_pos ⟨by omega, by omega, by simp⟩]
    simp
  have hblk : splice z 0 s' = s' ++ List.replicate cap 0 := by
    unfold splice
    simp [hz, h1]
  refine ⟨s', hs', h1, ?_⟩
  unfold Make
  simp only [hP, hgm, hst, hip, hs3, hblk]

/-- The call `PutUvarint` stays inside the buffer and leaves the bytes behind the encoding
as they were. -/
theorem PutUvarint_drop : ∀ (buf : List Byte) (x : Nat) (buf' : List Byte) (k : Nat),
    PutUvarint buf x = some (buf', k) → k ≤ buf.length ∧ buf'.drop k = buf.drop k := by
  intro buf
  induction buf with
  | nil => intro x buf' k h; simp [PutUvarint] at h
  | cons b rest ih =>
    intro x buf' k h
    unfold PutUvarint at h
    by_cases h128 : 0x80 ≤ x
    · rw [if_pos h128] at h
      cases hr : PutUvarint rest (x >>> 7) with
      | none => simp [hr] at h
      | some r =>
        obtain ⟨r1, n⟩ := r
        simp only [hr, Option.some.injEq, Prod.mk.injEq] at h
        obtain ⟨e1, e2⟩ := h
        subst e1 e2
        obtain ⟨h1, h2⟩ := ih _ _ _ hr
        exact ⟨by simp only [List.length_cons]; omega, by simpa using h2⟩
    · rw [if_neg h128] at h
      simp only [Option.some.injEq, Prod.mk.injEq] at h
      obtain ⟨e1, e2⟩ := h
      subst e1 e2
      exact ⟨by simp, by simp⟩

/-- The function `initPadding` on a view inside a block: it returns exactly when no
word index reaches `2 ^ (7 * wordSize)`, and then only the bytes of the view
have changed and word `i` of the view decodes to `i`. -/
theorem initPadding_words (h : Heap) (hd : Slice) (b : List Byte) (hb : h[hd.blk]? = some b)
    (hin : hd.off + hd.len ≤ b.length) :
    (2 ^ (7 * wordSize) < hd.len / wordSize → initPadding h hd = none) ∧
    (hd.len / wordSize ≤ 2 ^ (7 * wordSize) →
      ∃ h' b', initPadding h hd = some h' ∧ h'[hd.blk]? = some b' ∧ b'.length = b.length ∧
        (∀ i, i ≠ hd.blk → h'[i]? = h[i]?) ∧
        (∀ o n, o + n ≤ hd.off ∨ hd.off + hd.len ≤ o → window b' o n = window b o n) ∧
        ∀ i, i < hd.len / wordSize →
          (Uvarint (window b' (hd.off + i * wordSize) wordSize)).1 = i ∧
          holdsUvarint (window b' (hd.off + i * wordSize) wordSize) i) := by
  have hwl : (window b hd.off hd.len).length = hd.len := window_length _ _ _ hin
  have hmul : (0 + hd.len / wordSize) * wordSize ≤ (window b hd.off hd.len).length := by
    rw [hwl]
    unfold wordSize
    omega
  constructor
  · intro hbig
    unfold initPadding
    rw [bytes_eq h hd b hb hin]
    simp only []
    rw [initPaddingLoop_none _ _ _ (Nat.zero_le _) (by omega)]
  · intro hp
    obtain ⟨w, hw⟩ := initPaddingLoop_some (hd.len / wordSize) 0 (window b hd.off hd.len) hmul
      (by omega)
    obtain ⟨h1, h2, _⟩ := initPaddingLoop_spec _ _ _ _ hmul hw
    have hh := initPaddingLoop_holds _ _ _ _ hmul hw
    have hfit : hd.off + w.length ≤ b.length := by rw [h1, hwl]; exact hin
    have hinit : initPadding h hd = some (h.set hd.blk (splice b hd.off w)) := by
      unfold initPadding
      rw [bytes_eq h hd b hb hin]
      simp only [hw]
      exact store_eq h _ _ _ b hb hfit
    refine ⟨_, _, hinit, get_set_same h hd.blk b _ hb, splice_length _ _ _ hfit,
      fun i hi => get_set_other h hd.blk i _ hi, ?_, ?_⟩
    · intro o n hon
      exact window_splice_disjoint _ _ _ _ _ hfit (by rw [h1, hwl]; exact hon)
    · intro i hi
      have hwin := window_splice_inside b hd.off w (i * wordSize) wordSize hfit
        (by rw [h1, hwl]; unfold wordSize at *; omega)
      rw [hwin]
      exact ⟨h2 i (Nat.zero_le _) (by omega), hh i (Nat.zero_le _) (by omega)⟩

/-! ## One `Pool.Make` call, case by case -/

theorem PoolMake_none (p : Pool) (h : Heap) (pick : Option Nat) (len cap pad : Nat)
    (hbad : cap < len ∨ 2 ^ (7 * wordSize) ≤ roundPad pad / wordSize) :
    Pool.Make p h pick len cap pad = none := by
  have hd := roundPad_dvd pad
  have hmk : Make h len cap pad = none := by
    rcases hbad with hgt | hbig
    · exact Make_none_of_gt h len cap pad hgt
    · exact Make_none_of_large h len cap pad hbig
  rcases Pool_get_cases p pick (roundPad pad + cap + wordSize) with
    ⟨q, hg⟩ | ⟨i, B, _, hB, hmin, hg⟩
  · rw [PoolMake_fresh p q h pick len cap pad hg, hmk]
    rfl
  · have hre : realloc h B len cap (roundPad pad) = none := by
      rcases hbad with hgt | hbig
      · exact realloc_none_of_gt h B len cap _ hgt
      · exact realloc_none_of_large h B len cap _ hd hbig
    rw [PoolMake_reuse p _ h pick len cap pad B hg, hre]
    rfl

theorem PoolMake_some_bounds (p p' : Pool) (h h' : Heap) (pick : Option Nat)
    (len cap pad : Nat) (s : Slice)
    (hm : Pool.Make p h pick len cap pad = some (p', h', s)) :
    len ≤ cap ∧ roundPad pad / wordSize < 2 ^ (7 * wordSize) := by
  constructor
  · by_contra hc
    rw [PoolMake_none p h pick len cap pad (Or.inl (by omega))] at hm
    exact Option.noConfusion hm
  · by_contra hc
    rw [PoolMake_none p h pick len cap pad (Or.inr (by omega))] at hm
    exact Option.noConfusion hm

/-- The reusing branch of `Pool.Make`, evaluated: item `i` leaves the pool, the
first `roundPad pad + wordSize` bytes of its view are rewritten and the slice
starts behind them (at the first byte of the item when its capacity is 0). -/
theorem PoolMake_reuse_some (p : Pool) (h : Heap) (i len cap pad : Nat) (B : Slice)
    (hB : p.items[i]? = some B) (hv : h.valid B)
    (hfit : roundPad pad + cap + wordSize ≤ B.len) (hlc : len ≤ cap)
    (hp : roundPad pad / wordSize < 2 ^ (7 * wordSize)) :
    ∃ b b', h[B.blk]? = some b ∧ b'.length = b.length ∧
      Pool.Make p h (some i) len cap pad =
        some (⟨p.items.eraseIdx i⟩, h.set B.blk b',
          ⟨B.blk, slicePtr B.off (roundPad pad + wordSize) cap, len, cap⟩) := by
  obtain ⟨hlcB, b, hb, hcap⟩ := hv
  obtain ⟨w, hw, hwl, _⟩ := realloc_spec h B len cap (roundPad pad) b hb hcap
    (roundPad_dvd pad) (by omega) hlc hp
  refine ⟨b, splice b B.off w, hb, splice_length _ _ _ (by omega), ?_⟩
  rw [PoolMake_reuse p _ h (some i) len cap pad B (Pool_get_some p i _ B hB hfit), hw]
  rfl

/-- The allocating branch of `Pool.Make`, evaluated. -/
theorem PoolMake_fresh_some (p q : Pool) (h : Heap) (pick : Option Nat) (len cap pad : Nat)
    (hg : p.get pick (roundPad pad + cap + wordSize) = (q, none)) (hlc : len ≤ cap)
    (hp : roundPad pad / wordSize < 2 ^ (7 * wordSize)) :
    ∃ blk, Pool.Make p h pick len cap pad =
      some (q, h ++ [blk], ⟨h.length, slicePtr 0 (roundPad pad + wordSize) cap, len, cap⟩) := by
  obtain ⟨blk, hm, _⟩ := Make_spec h len cap pad hlc hp
  refine ⟨blk, ?_⟩
  rw [PoolMake_fresh p q h pick len cap pad hg, hm]
  rfl

/-- What a `Pool.Make` call that returns has done: either it took a long enough
item out of the pool and returned a view of it, the memory changed inside that
block only, or the pool yielded nothing usable and the slice is in a new
block. -/
theorem PoolMake_step (p p' : Pool) (h h' : Heap) (pick : Option Nat) (len cap pad : Nat)
    (s : Slice) (hv : ∀ B ∈ p.items, h.valid B)
    (hm : Pool.Make p h pick len cap pad = some (p', h', s)) :
    (∃ i B b b', pick = some i ∧ p.items[i]? = some B ∧
        roundPad pad + cap + wordSize ≤ B.len ∧ p' = ⟨p.items.eraseIdx i⟩ ∧
        h[B.blk]? = some b ∧ b'.length = b.length ∧ h' = h.set B.blk b' ∧
        s = ⟨B.blk, slicePtr B.off (roundPad pad + wordSize) cap, len, cap⟩) ∨
    (∃ blk, p.get pick (roundPad pad + cap + wordSize) = (p', none) ∧
        h' = h ++ [blk] ∧
        s = ⟨h.length, slicePtr 0 (roundPad pad + wordSize) cap, len, cap⟩) := by
  obtain ⟨hlc, hp⟩ := PoolMake_some_bounds p p' h h' pick len cap pad s hm
  rcases Pool_get_cases p pick (roundPad pad + cap + wordSize) with
    ⟨q, hg⟩ | ⟨i, B, hpick, hB, hmin, hg⟩
  · obtain ⟨blk, hpm⟩ := PoolMake_fresh_some p q h pick len cap pad hg hlc hp
    rw [hpm] at hm
    simp only [Option.some.injEq, Prod.mk.injEq] at hm
    obtain ⟨e1, e2, e3⟩ := hm
    subst e1 e2 e3
    exact Or.inr ⟨blk, hg, rfl, rfl⟩
  · subst hpick
    obtain ⟨b, b', hb, hbl, hpm⟩ := PoolMake_reuse_some p h i len cap pad B hB
      (hv B (List.getElem?_mem hB)) hmin hlc hp
    rw [hpm] at hm
    simp only [Option.some.injEq, Prod.mk.injEq] at hm
    obtain ⟨e1, e2, e3⟩ := hm
    subst e1 e2 e3
    exact Or.inl ⟨i, B, b, b', rfl, hB, hmin, rfl, hb, hbl, rfl, rfl⟩

/-! ## The pool over several calls -/

theorem eraseIdx_ne_of_nodup {α β : Type} (f : α → β) : ∀ (l : List α) (i : Nat) (a : α),
    (l.map f).Nodup → l[i]? = some a → ∀ x ∈ l.eraseIdx i, f x ≠ f a := by
  intro l
  induction l with
  | nil => intro i a _ h; simp at h
  | cons y ys ih =>
    intro i a hnd hget x hx
    rw [List.map_cons, List.nodup_cons] at hnd
    cases i with
    | zero =>
      simp only [List.getElem?_cons_zero, Option.some.injEq] at hget
      subst hget
      rw [List.eraseIdx_cons_zero] at hx
      intro heq
      exact hnd.1 (heq ▸ List.mem_map_of_mem f hx)
    | succ j =>
      simp only [List.getElem?_cons_succ] at hget
      rw [List.eraseIdx_cons_succ, List.mem_cons] at hx
      rcases hx with hxy | hxin
      · subst hxy
        intro heq
        exact hnd.1 (heq ▸ List.mem_map_of_mem f (List.getElem?_mem hget))
      · exact ih j a hnd.2 hget x hxin

theorem Pool_get_sublist (p q : Pool) (pick : Option Nat) (min : Nat) (r : Option Slice)
    (hg : p.get pick min = (q, r)) : q.items.Sublist p.items := by
  unfold Pool.get at hg
  cases pick with
  | none =>
    simp only [Prod.mk.injEq] at hg
    rw [← hg.1]
  | some i =>
    simp only [] at hg
    cases hB : p.items[i]? with
    | none =>
      simp only [hB, Prod.mk.injEq] at hg
      rw [← hg.1]
    | some B =>
      simp only [hB] at hg
      split at hg <;>
      · simp only [Prod.mk.injEq] at hg
        rw [← hg.1]
        exact List.eraseIdx_sublist _ _

theorem valid_set (h : Heap) (B : Slice) (k : Nat) (b b' : List Byte) (hv : h.valid B)
    (hb : h[k]? = some b) (hl : b'.length = b.length) : Heap.valid (h.set k b') B := by
  obtain ⟨hlc, c, hc, hcap⟩ := hv
  by_cases hk : B.blk = k
  · rw [hk] at hc
    rw [hb] at hc
    simp only [Option.some.injEq] at hc
    subst hc
    exact ⟨hlc, b', by rw [hk]; exact get_set_same h k b b' hb, by omega⟩
  · exact ⟨hlc, c, by rw [get_set_other h k B.blk b' hk]; exact hc, hcap⟩

theorem valid_append (h : Heap) (B : Slice) (blk : List Byte) (hv : h.valid B) :
    Heap.valid (h ++ [blk]) B := by
  obtain ⟨hlc, c, hc, hcap⟩ := hv
  exact ⟨hlc, c, by rw [heap_get_old h blk _ (get_lt h _ _ hc)]; exact hc, hcap⟩

/-- One `Pool.Make` call on a pool whose spare blocks lie in memory and are
pairwise distinct: the pool left is such a pool, holds only items it held
before and none over the block of the slice returned, which is either the
block of an item the pool held or a new block. -/
theorem PoolMake_wf (p p' : Pool) (h h' : Heap) (pick : Option Nat) (len cap pad : Nat)
    (s : Slice) (hv : ∀ B ∈ p.items, h.valid B) (hd : (p.items.map Slice.blk).Nodup)
    (hm : Pool.Make p h pick len cap pad = some (p', h', s)) :
    (∀ B ∈ p'.items, h'.valid B) ∧ (p'.items.map Slice.blk).Nodup ∧
      p'.items.Sublist p.items ∧ (∀ B ∈ p'.items, B.blk ≠ s.blk) ∧
      s.blk < h'.length ∧ h.length ≤ h'.length ∧
      ((∃ B ∈ p.items, B.blk = s.blk) ∨ h.length ≤ s.blk) := by
  rcases PoolMake_step p p' h h' pick len cap pad s hv hm with
    ⟨i, B, b, b', _, hB, _, hp', hb, hbl, hh', hs⟩ | ⟨blk, hg, hh', hs⟩
  · subst hp' hh' hs
    have hsub : (p.items.eraseIdx i).Sublist p.items := List.eraseIdx_sublist _ _
    refine ⟨fun C hC => valid_set h C B.blk b b' (hv C (hsub.subset hC)) hb hbl,
      List.Nodup.sublist (hsub.map _) hd, hsub,
      fun C hC => eraseIdx_ne_of_nodup Slice.blk p.items i B hd hB C hC, ?_, ?_,
      Or.inl ⟨B, List.getElem?_mem hB, rfl⟩⟩
    · simp only [List.length_set]
      exact get_lt h _ _ hb
    · simp
  · subst hh' hs
    have hsub := Pool_get_sublist p p' pick _ none hg
    refine ⟨fun C hC => valid_append h C blk (hv C (hsub.subset hC)),
      List.Nodup.sublist (hsub.map _) hd, hsub, ?_, by simp, by simp, Or.inr (le_refl _)⟩
    intro C hC
    obtain ⟨_, c, hc, _⟩ := hv C (hsub.subset hC)
    have := get_lt h _ _ hc
    simp only []
    omega

/-- The in-place `Prepend` on a slice of the layout: for `elems` of `k` bytes with
`k % wordSize = 0` and `k ≤ s.Pad()`, `s.Prepend(elems)` returns a slice over the
same block, `k` bytes in front of `s`, whose content is `elems` followed by the
old content of `s`, whose length is `len(s) + k`, whose capacity is `cap(s) + k`
and whose `Pad()` is `s.Pad() - k`. -/
theorem Prepend_in_place_result (rt : Runtime) (h : Heap) (s : Slice) (elems : List Byte)
    (p : Int) (hl : Layout h s) (hk : elems.length % wordSize = 0) (hp : s.Pad h = some p)
    (hle : (elems.length : Int) ≤ p) :
    ∃ h' s' old, s.Prepend rt h elems = some (h', s') ∧ h.bytes s = some old ∧
      s'.blk = s.blk ∧ s'.off + elems.length = s.off ∧
      h'.bytes s' = some (elems ++ old) ∧
      s'.len = s.len + elems.length ∧ s'.cap = s.cap + elems.length ∧
      s'.Pad h' = some (p - elems.length) := by
  have hpad := Layout_Pad h s hl
  rw [hpad] at hp
  simp only [Option.some.injEq] at hp
  subst hp
  have hl' := hl
  obtain ⟨⟨hlc, b, hb, hcap⟩, h8, hdvd, hw⟩ := hl
  have hko : elems.length + wordSize ≤ s.off := by omega
  have hin : s.off - elems.length + elems.length ≤ b.length := by omega
  have hpre : s.Prepend rt h elems = prependInPlace h s elems := by
    unfold Slice.Prepend
    simp only []
    rw [if_neg (by omega)]
    simp only [hpad]
    rw [if_neg (by omega)]
  have hip : prependInPlace h s elems =
      some (h.set s.blk (splice b (s.off - elems.length) elems),
        ⟨s.blk, s.off - elems.length, s.len + elems.length, s.cap + elems.length⟩) := by
    unfold prependInPlace
    simp only []
    rw [if_pos (by omega), List.take_of_length_le (by omega), store_eq h _ _ _ b hb hin]
  have hl2 := Layout_prependInPlace h _ s _ elems hl' hk hko hip
  have hsp := splice_length b (s.off - elems.length) elems hin
  have hg := get_set_same h s.blk b (splice b (s.off - elems.length) elems) hb
  refine ⟨_, _, window b s.off s.len, hpre.trans hip, bytes_eq h s b hb (by omega), rfl,
    by simp only []; omega, ?_, rfl, rfl, ?_⟩
  · rw [bytes_eq (h.set s.blk (splice b (s.off - elems.length) elems))
      ⟨s.blk, s.off - elems.length, s.len + elems.length, s.cap + elems.length⟩ _ hg
      (by simp only [hsp]; omega)]
    simp only []
    rw [Nat.add_comm s.len elems.length]
    exact congrArg some (window_splice_head b s.off s.len elems (by omega) (by omega))
  · rw [Layout_Pad _ _ hl2]
    simp only []
    congr 1
    omega

/-- The reuse criterion of `Pool.Make`: on a pool whose spare blocks lie in
memory, `Pool.Make` returns a slice exactly when `len ≤ cap` and the padding words
can be numbered, and the slice it returns is a view over the spare block `B` that
the pool yields if and only if `roundPad pad + cap + wordSize ≤ len(B)`; on reuse
no block is allocated and the view starts where the slice expression of
`realloc` puts it, at offset `roundPad pad + wordSize` of `B` when `cap > 0`; when
`B` is too short, or the pool yields nothing, the slice lies in a block allocated
by the call. -/
theorem PoolMake_reuse_iff (p : Pool) (h : Heap) (pick : Option Nat) (len cap pad : Nat)
    (hpool : ∀ B ∈ p.items, h.valid B) :
    ((∃ r, Pool.Make p h pick len cap pad = some r) ↔
        (len ≤ cap ∧ roundPad pad / wordSize < 2 ^ (7 * wordSize))) ∧
    ∀ p' h' s, Pool.Make p h pick len cap pad = some (p', h', s) →
      (∀ i B, pick = some i → p.items[i]? = some B →
        ((roundPad pad + cap + wordSize ≤ B.len ↔ s.blk = B.blk) ∧
         (roundPad pad + cap + wordSize ≤ B.len →
            s.off = slicePtr B.off (roundPad pad + wordSize) cap ∧
            (0 < cap → s.off = B.off + (roundPad pad + wordSize)) ∧
            h'.length = h.length) ∧
         (B.len < roundPad pad + cap + wordSize →
            s.blk = h.length ∧ h'.length = h.length + 1))) ∧
      ((pick = none ∨ ∃ i, pick = some i ∧ p.items[i]? = none) →
        s.blk = h.length ∧ h'.length = h.length + 1) := by
  have hd := roundPad_dvd pad
  have hfresh : ∀ q, p.get pick (roundPad pad + cap + wordSize) = (q, none) →
      ((∃ r, Pool.Make p h pick len cap pad = some r) ↔
        (len ≤ cap ∧ roundPad pad / wordSize < 2 ^ (7 * wordSize))) ∧
      ∀ p' h' s, Pool.Make p h pick len cap pad = some (p', h', s) →
        s.blk = h.length ∧ h'.length = h.length + 1 := by
    intro q hg
    have hpm : Pool.Make p h pick len cap pad =
        (Make h len cap pad).map (fun r => (q, r.1, r.2)) := by
      unfold Pool.Make
      simp only [hg, Make_roundPad]
      cases Make h len cap pad with
      | none => rfl
      | some r => rfl
    constructor
    · constructor
      · rintro ⟨r, hr⟩
        rw [hpm] at hr
        cases hmk : Make h len cap pad with
        | none => simp [hmk] at hr
        | some m => exact Make_some_bounds h m.1 len cap pad m.2 hmk
      · rintro ⟨hlc, hp⟩
        obtain ⟨blk, hm, _⟩ := Make_spec h len cap pad hlc hp
        rw [hpm, hm]
        exact ⟨_, rfl⟩
    · intro p' h' s hr
      rw [hpm] at hr
      cases hmk : Make h len cap pad with
      | none => simp [hmk] at hr
      | some m =>
        obtain ⟨hlc, hp⟩ := Make_some_bounds h m.1 len cap pad m.2 hmk
        obtain ⟨blk, hm, _⟩ := Make_spec h len cap pad hlc hp
        rw [hm] at hr
        simp only [Option.map_some', Option.some.injEq, Prod.mk.injEq] at hr
        obtain ⟨_, e1, e2⟩ := hr
        subst e1 e2
        simp
  cases pick with
  | none =>
    obtain ⟨hiff, hres⟩ := hfresh p rfl
    refine ⟨hiff, fun p' h' s hr => ⟨?_, fun _ => hres p' h' s hr⟩⟩
    intro i B hi
    exact Option.noConfusion hi
  | some i =>
    cases hB : p.items[i]? with
    | none =>
      have hg : p.get (some i) (roundPad pad + cap + wordSize) = (p, none) := by
        unfold Pool.get
        simp only [hB]
      obtain ⟨hiff, hres⟩ := hfresh p hg
      refine ⟨hiff, fun p' h' s hr => ⟨?_, fun _ => hres p' h' s hr⟩⟩
      intro j B hj hjB
      simp only [Option.some.injEq] at hj
      subst hj
      rw [hB] at hjB
      exact Option.noConfusion hjB
    | some B =>
      have hvB := hpool B (List.getElem?_mem hB)
      have hBlt : B.blk < h.length := by
        obtain ⟨_, b, hb, _⟩ := hvB
        exact get_lt h _ _ hb
      have hnot : ¬ (some i = none ∨ ∃ j, some i = some j ∧ p.items[j]? = none) := by
        rintro (hc | ⟨j, hj, hjn⟩)
        · exact Option.noConfusion hc
        · simp only [Option.some.injEq] at hj
          subst hj
          rw [hB] at hjn
          exact Option.noConfusion hjn
      by_cases hmin : roundPad pad + cap + wordSize ≤ B.len
      · have hg := Pool_get_some p i _ B hB hmin
        have hpm : Pool.Make p h (some i) len cap pad =
            (realloc h B len cap (roundPad pad)).map
              (fun r => ((⟨p.items.eraseIdx i⟩ : Pool), r.1, r.2)) := by
          unfold Pool.Make
          simp only [hg]
          cases realloc h B len cap (roundPad pad) with
          | none => rfl
          | some r => rfl
        have hfit : roundPad pad + wordSize + cap ≤ B.cap := by
          have := hvB.1
          omega
        constructor
        · constructor
          · rintro ⟨r, hr⟩
            rw [hpm] at hr
            cases hre : realloc h B len cap (roundPad pad) with
            | none => simp [hre] at hr
            | some m =>
              have := realloc_some_bounds h m.1 B m.2 len cap (roundPad pad) hd hre
              exact ⟨this.1, this.2.2⟩
          · rintro ⟨hlc, hp⟩
            obtain ⟨h1, hre, _⟩ := realloc_view h B len cap (roundPad pad) hvB hd hfit hlc hp
            rw [hpm, hre]
            exact ⟨_, rfl⟩
        · intro p' h' s hr
          rw [hpm] at hr
          cases hre : realloc h B len cap (roundPad pad) with
          | none => simp [hre] at hr
          | some m =>
            have hbd := realloc_some_bounds h m.1 B m.2 len cap (roundPad pad) hd hre
            obtain ⟨h1, hre', hl1⟩ :=
              realloc_view h B len cap (roundPad pad) hvB hd hfit hbd.1 hbd.2.2
            rw [hre'] at hr
            simp only [Option.map_some', Option.some.injEq, Prod.mk.injEq] at hr
            obtain ⟨_, e1, e2⟩ := hr
            subst e1 e2
            refine ⟨?_, fun hc => absurd hc hnot⟩
            intro j B' hj hjB
            simp only [Option.some.injEq] at hj
            subst hj
            rw [hB] at hjB
            simp only [Option.some.injEq] at hjB
            subst hjB
            exact ⟨⟨fun _ => rfl, fun _ => hmin⟩,
              fun _ => ⟨rfl, fun hc => slicePtr_pos _ _ _ hc, hl1⟩,
              fun hc => absurd hc (Nat.not_lt.2 hmin)⟩
      · have hg := Pool_get_short p i (roundPad pad + cap + wordSize) B hB (by omega)
        obtain ⟨hiff, hres⟩ := hfresh _ hg
        refine ⟨hiff, fun p' h' s hr => ⟨?_, fun hc => absurd hc hnot⟩⟩
        intro j B' hj hjB
        simp only [Option.some.injEq] at hj
        subst hj
        rw [hB] at hjB
        simp only [Option.some.injEq] at hjB
        subst hjB
        obtain ⟨hs1, hs2⟩ := hres p' h' s hr
        refine ⟨⟨fun hc => absurd hc hmin, fun hc => ?_⟩, fun hc => absurd hc hmin,
          fun _ => ⟨hs1, hs2⟩⟩
        rw [hs1] at hc
        omega

/-- Agreement of `Pool.Make` with `Make`: for every `len ≤ cap` with `cap > 0`,
every `pad` and every pool whose spare blocks lie in memory, whatever they hold
and whichever the pool yields, `Pool.Make(len, cap, pad)` and `Make(len, cap, pad)` agree on
length, capacity and `Pad()` of the result (and on whether there is one); where
the padding words can be numbered these are `len`, `cap` and `pad` rounded up to a
multiple of `wordSize`. -/
theorem PoolMake_as_Make (p : Pool) (h : Heap) (pick : Option Nat) (len cap pad : Nat)
    (hpool : ∀ B ∈ p.items, h.valid B) (hcap : 0 < cap) (hlc : len ≤ cap) :
    (Pool.Make p h pick len cap pad).map (fun r => (r.2.2.len, r.2.2.cap, r.2.2.Pad r.2.1)) =
        (Make h len cap pad).map (fun r => (r.2.len, r.2.cap, r.2.Pad r.1)) ∧
      (roundPad pad / wordSize < 2 ^ (7 * wordSize) →
        ∃ p' h' s, Pool.Make p h pick len cap pad = some (p', h', s) ∧ s.len = len ∧
          s.cap = cap ∧ s.Pad h' = some (roundPad pad : Int)) := by
  have hd := roundPad_dvd pad
  by_cases hp : roundPad pad / wordSize < 2 ^ (7 * wordSize)
  · obtain ⟨h1, s1, hm, hl1, hc1, hp1⟩ := Make_result h len cap pad hcap hlc hp
    have key : ∃ p' h' s, Pool.Make p h pick len cap pad = some (p', h', s) ∧ s.len = len ∧
        s.cap = cap ∧ s.Pad h' = some (roundPad pad : Int) := by
      rcases Pool_get_cases p pick (roundPad pad + cap + wordSize) with
        ⟨q, hg⟩ | ⟨i, B, _, hB, hmin, hg⟩
      · rw [PoolMake_fresh p q h pick len cap pad hg, hm]
        exact ⟨_, _, _, rfl, hl1, hc1, hp1⟩
      · have hvB := hpool B (List.getElem?_mem hB)
        have hfit : roundPad pad + wordSize + cap ≤ B.cap := by
          have := hvB.1
          omega
        obtain ⟨h2, hre, _, hpad⟩ := realloc_result h B len cap (roundPad pad) hvB hd hfit hcap hlc hp
        rw [PoolMake_reuse p _ h pick len cap pad B hg, hre]
        exact ⟨_, _, _, rfl, rfl, rfl, hpad⟩
    refine ⟨?_, fun _ => key⟩
    obtain ⟨p', h', s, hpm, hl2, hc2, hp2⟩ := key
    rw [hpm, hm]
    simp only [Option.map_some', hl1, hc1, hp1, hl2, hc2, hp2]
  · refine ⟨?_, fun hc => absurd hc hp⟩
    have hmn := Make_none_of_large h len cap pad (by omega)
    rw [hmn]
    rcases Pool_get_cases p pick (roundPad pad + cap + wordSize) with
      ⟨q, hg⟩ | ⟨i, B, _, hB, hmin, hg⟩
    · rw [PoolMake_fresh p q h pick len cap pad hg, hmn]
      rfl
    · rw [PoolMake_reuse p _ h pick len cap pad B hg,
        realloc_none_of_large h B len cap (roundPad pad) hd (by omega)]
      rfl

/-- The layout of the slices of a program that requests capacities above 0: for
every slice produced by `Make` or `Pool.Make` with `cap > 0` and then by any
sequence of `Append` and `Prepend` calls, the distance from the origin of its block
to its first byte is a multiple of `wordSize`, at least `wordSize`, and equal to
`Pad() + wordSize`, and every word `i` of the block in front of the first byte
decodes to `i`; hence `Prepend` never moves the start in front of offset
`wordSize`, and an in-place `Prepend` leaves word 0 of the block as it is and
outside the slice. -/
theorem Reachable_layout_facts (rt : Runtime) (h : Heap) (s : Slice) (hr : Reachable rt h s) :
    s.off % wordSize = 0 ∧ wordSize ≤ s.off ∧
    (∃ p, s.Pad h = some p ∧ (s.off : Int) = p + wordSize) ∧
    (∃ b, h[s.blk]? = some b ∧ s.off ≤ b.length ∧
      ∀ i, i < s.off / wordSize → (Uvarint (window b (i * wordSize) wordSize)).1 = i) ∧
    ∀ elems, ∃ h' s', s.Prepend rt h elems = some (h', s') ∧ wordSize ≤ s'.off ∧
      (s'.blk = s.blk → ∃ b b', h[s.blk]? = some b ∧ h'[s.blk]? = some b' ∧
        window b' 0 wordSize = window b 0 wordSize) := by
  have hl := Reachable_Layout rt h s hr
  have hpad := Layout_Pad h s hl
  have hl' := hl
  obtain ⟨⟨hlc, b, hb, hcap⟩, h8, hdvd, hw⟩ := hl
  refine ⟨hdvd, h8, ⟨_, hpad, by push_cast [Nat.cast_sub h8]; omega⟩,
    ⟨b, hb, by omega, hw b hb⟩, ?_⟩
  intro elems
  obtain ⟨h', s', hp, hl2, _, hin, hout⟩ := Prepend_Layout_total rt h s elems hl'
  refine ⟨h', s', hp, hl2.2.1, ?_⟩
  intro hblk
  by_cases hc : elems.length % wordSize = 0 ∧ elems.length + wordSize ≤ s.off
  · obtain ⟨_, _, b1, b2, hb1, hb2, hfr⟩ := hin hc
    exact ⟨b1, b2, hb1, hb2, hfr 0 wordSize (Or.inl (by have := hl2.2.1; omega))⟩
  · have := (hout hc).1
    have hlt := get_lt h _ _ hb
    omega

/-- Padding is never restored on the slices of a program that requests capacities
above 0: for every such slice `s` and every `elems`, `s.Append(elems)` and
`s.Prepend(elems)` return slices whose `Pad()` is at most `s.Pad()`; and once `Pad()`
is 0, every slice derived by further `Append` and `Prepend` calls has `Pad()` 0 and
every `Prepend` of a non-empty `elems` to it returns a slice in a new block. -/
theorem Reachable_padding_never_restored (rt : Runtime) (h : Heap) (s : Slice)
    (hr : Reachable rt h s) :
    (∀ elems, ∃ h' s' p p', s.Append rt h elems = some (h', s') ∧ s.Pad h = some p ∧
      s'.Pad h' = some p' ∧ p' ≤ p) ∧
    (∀ elems, ∃ h' s' p p', s.Prepend rt h elems = some (h', s') ∧ s.Pad h = some p ∧
      s'.Pad h' = some p' ∧ p' ≤ p) ∧
    (s.Pad h = some 0 → ∀ h' s', Derived rt h s h' s' →
      s'.Pad h' = some 0 ∧
      ∀ elems, elems ≠ [] → ∃ h'' s'', s'.Prepend rt h' elems = some (h'', s'') ∧
        h'.length ≤ s''.blk ∧ s''.blk ≠ s'.blk ∧ s''.Pad h'' = some 0) := by
  have hl := Reachable_Layout rt h s hr
  have hpad := Layout_Pad h s hl
  have h8 := hl.2.1
  refine ⟨?_, ?_, ?_⟩
  · intro elems
    obtain ⟨h', s', ha, hl', hle⟩ := Append_Layout_total rt h s elems hl
    exact ⟨h', s', _, _, ha, hpad, Layout_Pad h' s' hl', by have := hl'.2.1; omega⟩
  · intro elems
    obtain ⟨h', s', ha, hl', hle, _⟩ := Prepend_Layout_total rt h s elems hl
    exact ⟨h', s', _, _, ha, hpad, Layout_Pad h' s' hl', by have := hl'.2.1; omega⟩
  · intro h0 h' s' hd
    rw [hpad] at h0
    simp only [Option.some.injEq] at h0
    have hoff : s.off = wordSize := by omega
    obtain ⟨hl', hle⟩ := Derived_Layout rt h h' s s' hl hd
    have h8' := hl'.2.1
    have hoff' : s'.off = wordSize := by omega
    have hpad' := Layout_Pad h' s' hl'
    rw [hoff', Nat.sub_self] at hpad'
    refine ⟨hpad', ?_⟩
    intro elems hne
    have hpos : 0 < elems.length := List.length_pos.2 hne
    obtain ⟨h'', s'', hp, hl'', _, _, hout⟩ := Prepend_Layout_total rt h' s' elems hl'
    have hfresh := hout (by intro hc; omega)
    obtain ⟨_, b', hb', _⟩ := hl'.1
    have hlt := get_lt h' _ _ hb'
    have hpad'' := Layout_Pad h'' s'' hl''
    rw [hfresh.2, Nat.sub_self] at hpad''
    exact ⟨h'', s'', hp, hfresh.1, by omega, hpad''⟩

/-! ## The claims -/

/-- Claim C1 is broken by the code at `Make(0, 0, 16)`: the call allocates a block
of 24 bytes, numbers its three words and returns `slice[24:24:24]`, a slice of
capacity 0, whose data pointer is the origin of the block and not its byte 24.
The word `Pad` decodes, the `wordSize` bytes in front of the data pointer, is
therefore no part of the block: `Pad()` is not read from the header word that
holds the rounded padding 16.  With capacity 1 the slice starts at byte 24 and
`Pad()` is 16. -/
theorem C1_Make_zero_capacity :
    (0 : Nat) ≤ 0 ∧ roundPad 16 = 16 ∧
    Make [] 0 0 16 = some (zeroCapHeap, zeroCapSlice) ∧
    zeroCapHeap[zeroCapSlice.blk]?.map List.length = some (roundPad 16 + wordSize) ∧
    zeroCapSlice.off = 0 ∧ zeroCapSlice.Pad zeroCapHeap = none ∧
    ∃ h s, Make [] 0 1 16 = some (h, s) ∧ s.off = roundPad 16 + wordSize ∧
      s.Pad h = some 16 := by
  refine ⟨by decide, by decide, by decide, by decide, rfl, by decide, ?_⟩
  exact ⟨[[0, 0, 0, 0, 0, 0, 0, 0, 1, 0, 0, 0, 0, 0, 0, 0, 2, 0, 0, 0, 0, 0, 0, 0, 0]],
    ⟨0, 24, 0, 1⟩, by decide, by decide, by decide⟩

/-- Claim C3: for every slice `s` of the memory and every `elems` of `k` bytes
with `k % wordSize ≠ 0` or `k > s.Pad()`, `s.Prepend(elems)` returns a slice over a
block that did not exist before, whose content is `elems` followed by the
content of `s`, whose length is `len(s) + k` and whose `Pad()` is 0. -/
theorem C3_Prepend_realloc (rt : Runtime) (h : Heap) (s : Slice) (elems : List Byte)
    (hv : h.valid s)
    (hc : elems.length % wordSize ≠ 0 ∨ ∃ p, s.Pad h = some p ∧ p < (elems.length : Int)) :
    ∃ h' s' old, s.Prepend rt h elems = some (h', s') ∧ h.bytes s = some old ∧
      h.length ≤ s'.blk ∧ s'.blk ≠ s.blk ∧ h'.bytes s' = some (elems ++ old) ∧
      s'.len = s.len + elems.length ∧ s'.Pad h' = some 0 := by
  obtain ⟨hlc, b, hb, hcap⟩ := hv
  have hlen : s.off + s.len ≤ b.length := by omega
  have hblt := get_lt h _ _ hb
  have hwl : (window b s.off s.len).length = s.len := window_length _ _ _ hlen
  have hpre := Prepend_grow rt h s elems b hb hlen hc
  have hcl : (elems ++ window b s.off s.len).length = elems.length + s.len := by simp [hwl]
  have hl1 : (h ++ [List.replicate wordSize (0 : Byte)]).length = h.length + 1 := by simp
  refine ⟨_, _, window b s.off s.len, hpre, bytes_eq h s b hb hlen, ?_, ?_, ?_, ?_, ?_⟩
  · simp only []
    omega
  · simp only []
    omega
  · have := freshBlock_bytes rt (h ++ [List.replicate wordSize 0])
      (elems ++ window b s.off s.len)
      (rt.growCap wordSize (wordSize + (elems.length + s.len)) - wordSize)
    rw [hcl, hl1] at this
    exact this
  · simp only []
    omega
  · have := freshBlock_Pad rt (h ++ [List.replicate wordSize 0])
      (elems ++ window b s.off s.len) (elems.length + s.len)
      (rt.growCap wordSize (wordSize + (elems.length + s.len)) - wordSize)
    rw [hl1] at this
    exact this

/-- Claim C3, witness: three bytes, which would fit in the eight bytes of
padding of `sampleSlice` but are misaligned. -/
theorem C3_Prepend_realloc_witness :
    sampleHeap.valid sampleSlice ∧
    (([1, 2, 3] : List Byte).length % wordSize ≠ 0 ∨
      ∃ p, sampleSlice.Pad sampleHeap = some p ∧ p < (([1, 2, 3] : List Byte).length : Int)) ∧
    ∃ h' s' old, sampleSlice.Prepend exactRuntime sampleHeap [1, 2, 3] = some (h', s') ∧
      sampleHeap.bytes sampleSlice = some old ∧
      sampleHeap.length ≤ s'.blk ∧ s'.blk ≠ sampleSlice.blk ∧
      h'.bytes s' = some ([1, 2, 3] ++ old) ∧
      s'.len = sampleSlice.len + ([1, 2, 3] : List Byte).length ∧ s'.Pad h' = some 0 :=
  ⟨⟨by decide, _, rfl, by decide⟩, Or.inl (by decide),
    C3_Prepend_realloc exactRuntime sampleHeap sampleSlice [1, 2, 3]
      ⟨by decide, _, rfl, by decide⟩ (Or.inl (by decide))⟩

/-- Claim C4: for every slice `s` of the memory and every `elems`, in place or
reallocating, `s.Append(elems)` has length `len(s) + len(elems)` and its content
is the content of `s` followed by `elems`. -/
theorem C4_Append_content (rt : Runtime) (h : Heap) (s : Slice) (elems : List Byte)
    (hv : h.valid s) :
    ∃ h' s' old, s.Append rt h elems = some (h', s') ∧ h.bytes s = some old ∧
      s'.len = s.len + elems.length ∧ h'.bytes s' = some (old ++ elems) := by
  obtain ⟨hlc, b, hb, hcap⟩ := hv
  have hlen : s.off + s.len ≤ b.length := by omega
  by_cases hfit : s.cap < s.len + elems.length
  · obtain ⟨tmp, ha⟩ := Append_grow rt h s elems b hb hlen hfit
    have hwl : (window b s.off s.len).length = s.len := window_length _ _ _ hlen
    refine ⟨_, _, window b s.off s.len, ha, bytes_eq h s b hb hlen, rfl, ?_⟩
    have hcl : (window b s.off s.len ++ elems).length = s.len + elems.length := by simp [hwl]
    have := freshBlock_bytes rt (h ++ [List.replicate wordSize 0] ++ [tmp])
      (window b s.off s.len ++ elems)
      (rt.growCap wordSize (wordSize + (s.len + elems.length)) - wordSize)
    rw [hcl] at this
    simpa using this
  · have hfit' : s.len + elems.length ≤ s.cap := by omega
    have ha : s.Append rt h elems = goAppend rt h s elems := by
      unfold Slice.Append
      rw [if_neg hfit]
    rw [goAppend_inplace rt h s elems b hb hcap hfit'] at ha
    refine ⟨_, _, window b s.off s.len, ha, bytes_eq h s b hb hlen, rfl, ?_⟩
    have hsp : (splice b (s.off + s.len) elems).length = b.length :=
      splice_length _ _ _ (by omega)
    rw [bytes_eq (h.set s.blk (splice b (s.off + s.len) elems))
      ⟨s.blk, s.off, s.len + elems.length, s.cap⟩ _ (get_set_same h s.blk b _ hb)
      (by simp only [hsp]; omega)]
    exact congrArg some (window_splice_tail b s.off s.len elems (by omega))

/-- Claim C4, witness: two bytes appended to `sampleSlice`, one more than its
capacity holds. -/
theorem C4_Append_content_witness :
    sampleHeap.valid sampleSlice ∧
    ∃ h' s' old, sampleSlice.Append exactRuntime sampleHeap [5, 6] = some (h', s') ∧
      sampleHeap.bytes sampleSlice = some old ∧
      s'.len = sampleSlice.len + ([5, 6] : List Byte).length ∧
      h'.bytes s' = some (old ++ [5, 6]) :=
  ⟨⟨by decide, _, rfl, by decide⟩,
    C4_Append_content exactRuntime sampleHeap sampleSlice [5, 6] ⟨by decide, _, rfl, by decide⟩⟩

/-- Claim C5 is broken by the code at the request `(0, 0, 8)` to the pool that
holds the block of 18 bytes freed from `Make(1, 2, 8)`.  The block is long
enough (`8 + 0 + wordSize ≤ 18`) and is reused, but the slice `realloc` returns,
`blk[16:16:16]` of capacity 0, has the data pointer of the block: it starts at
offset 0 of the block and not at offset `roundPad 8 + wordSize = 16`.  With
capacity 1 the slice starts at offset 16. -/
theorem C5_PoolMake_zero_capacity :
    samplePool.items[0]? = some ⟨0, 0, 18, 18⟩ ∧
    roundPad 8 + 0 + wordSize ≤ (⟨0, 0, 18, 18⟩ : Slice).len ∧
    Pool.Make samplePool sampleHeap (some 0) 0 0 8 = some (⟨[]⟩, sampleHeap, ⟨0, 0, 0, 0⟩) ∧
    (⟨0, 0, 0, 0⟩ : Slice).off ≠ (⟨0, 0, 18, 18⟩ : Slice).off + (roundPad 8 + wordSize) ∧
    Pool.Make samplePool sampleHeap (some 0) 0 1 8 =
      some (⟨[]⟩, sampleHeap, ⟨0, roundPad 8 + wordSize, 0, 1⟩) := by
  refine ⟨by decide, by decide, by decide, by decide, by decide⟩

/-- Claim C6 is broken by the code at the request `(0, 0, 8)`, to the pool that
holds the block freed from `Make(1, 2, 8)` and to `Make`.  Either call
returns a slice of length 0 and capacity 0 at the origin of its block, the
reused one or the new one, so the word `Pad()` decodes lies in front of the
block: neither `Pad()` is read from the header word that holds the rounded
padding 8. -/
theorem C6_PoolMake_zero_capacity_Pad :
    roundPad 8 = 8 ∧
    (∃ p' h' s, Pool.Make samplePool sampleHeap (some 0) 0 0 8 = some (p', h', s) ∧
      s.len = 0 ∧ s.cap = 0 ∧ s.blk = 0 ∧ s.off = 0 ∧ s.Pad h' = none) ∧
    (∃ h' s, Make sampleHeap 0 0 8 = some (h', s) ∧
      s.len = 0 ∧ s.cap = 0 ∧ s.blk = 1 ∧ s.off = 0 ∧ s.Pad h' = none) := by
  refine ⟨by decide, ⟨⟨[]⟩, sampleHeap, ⟨0, 0, 0, 0⟩, by decide, rfl, rfl, rfl, rfl, by decide⟩, ?_⟩
  exact ⟨sampleHeap ++ [[0, 0, 0, 0, 0, 0, 0, 0, 1, 0, 0, 0, 0, 0, 0, 0]], ⟨1, 0, 0, 0⟩,
    by decide, rfl, rfl, rfl, rfl, by decide⟩

/-- Claim C7 is broken by the code at the slice of `Make(0, 0, 16)`, freed into
the empty pool.  The slice is at the origin of its block of 24 bytes, so
`Free`, which moves the data pointer `Pad() + wordSize` bytes back, reads `Pad()`
from in front of the block and, whatever value below `2 ^ 59` and not negative it
gets (`Pad()` has no other values), leaves the block with the pointer: it does
not put the block from its origin, of length 24, into the pool.  The slice of
`Make(1, 2, 8)` is freed as the claim says: the pool receives its whole block of
18 bytes. -/
theorem C7_Free_zero_capacity :
    Make [] 0 0 16 = some (zeroCapHeap, zeroCapSlice) ∧
    zeroCapHeap[zeroCapSlice.blk]?.map List.length = some 24 ∧
    zeroCapSlice.off = 0 ∧ zeroCapSlice.Pad zeroCapHeap = none ∧
    (∀ sp : Int, 0 ≤ sp → sp < 2 ^ 59 →
      ¬ toInt64 (sp + (wordSize : Int)) ≤ (zeroCapSlice.off : Int)) ∧
    Pool.Free ⟨[]⟩ zeroCapHeap zeroCapSlice = none ∧
    Make [] 1 2 8 = some (sampleHeap, sampleSlice) ∧
    Pool.Free ⟨[]⟩ sampleHeap sampleSlice = some ⟨[⟨0, 0, 18, 18⟩]⟩ := by
  refine ⟨by decide, by decide, rfl, by decide, ?_, by decide, by decide, by decide⟩
  intro sp h0 h1
  have h8 : (wordSize : Int) = 8 := rfl
  rw [toInt64_of_lt _ (by omega) (by omega)]
  show ¬ sp + (wordSize : Int) ≤ 0
  omega

/-- Claim C8: for every slice `s` of the memory and every `elems` with
`len(s) + len(elems) > cap(s)`, `s.Append(elems)` returns a slice in a block that
did not exist before, one zero word followed by the content, and its `Pad()` is
0, whatever `s.Pad()` was. -/
theorem C8_Append_realloc (rt : Runtime) (h : Heap) (s : Slice) (elems : List Byte)
    (hv : h.valid s) (hfit : s.cap < s.len + elems.length) :
    ∃ h' s' old blk, s.Append rt h elems = some (h', s') ∧ h.bytes s = some old ∧
      h.length ≤ s'.blk ∧ s'.blk ≠ s.blk ∧ h'[s'.blk]? = some blk ∧
      s'.off = wordSize ∧ window blk 0 wordSize = List.replicate wordSize 0 ∧
      window blk wordSize s'.len = old ++ elems ∧ s'.Pad h' = some 0 := by
  obtain ⟨hlc, b, hb, hcap⟩ := hv
  have hlen : s.off + s.len ≤ b.length := by omega
  have hblt := get_lt h _ _ hb
  obtain ⟨tmp, ha⟩ := Append_grow rt h s elems b hb hlen hfit
  have hwl : (window b s.off s.len).length = s.len := window_length _ _ _ hlen
  have hcl : (window b s.off s.len ++ elems).length = s.len + elems.length := by simp [hwl]
  have hl2 : (h ++ [List.replicate wordSize 0] ++ [tmp]).length = h.length + 2 := by simp
  have hget := heap_get_new (h ++ [List.replicate wordSize 0] ++ [tmp])
    (freshBlock rt (window b s.off s.len ++ elems))
  rw [hl2] at hget
  refine ⟨_, _, window b s.off s.len, _, ha, bytes_eq h s b hb hlen, ?_, ?_, hget, rfl,
    freshBlock_head rt _, ?_, ?_⟩
  · simp only []
    omega
  · simp only []
    omega
  · have := freshBlock_content rt (window b s.off s.len ++ elems)
    rw [hcl] at this
    exact this
  · have := freshBlock_Pad rt (h ++ [List.replicate wordSize 0] ++ [tmp])
      (window b s.off s.len ++ elems) (s.len + elems.length)
      (rt.growCap wordSize (wordSize + (s.len + elems.length)) - wordSize)
    rw [hl2] at this
    exact this

/-- Claim C8, witness: two bytes appended to `sampleSlice`, whose padding is 8. -/
theorem C8_Append_realloc_witness :
    sampleHeap.valid sampleSlice ∧
    sampleSlice.cap < sampleSlice.len + ([5, 6] : List Byte).length ∧
    ∃ h' s' old blk, sampleSlice.Append exactRuntime sampleHeap [5, 6] = some (h', s') ∧
      sampleHeap.bytes sampleSlice = some old ∧
      sampleHeap.length ≤ s'.blk ∧ s'.blk ≠ sampleSlice.blk ∧ h'[s'.blk]? = some blk ∧
      s'.off = wordSize ∧ window blk 0 wordSize = List.replicate wordSize 0 ∧
      window blk wordSize s'.len = old ++ [5, 6] ∧ s'.Pad h' = some 0 :=
  ⟨⟨by decide, _, rfl, by decide⟩, by decide,
    C8_Append_realloc exactRuntime sampleHeap sampleSlice [5, 6]
      ⟨by decide, _, rfl, by decide⟩ (by decide)⟩

/-- Claim C9: for every slice `s` of the memory and every `elems` with
`len(s) + len(elems) ≤ cap(s)`, the exact fit included, `s.Append(elems)` is a view
over the same block with the same first byte, the same capacity and the same
`Pad()` as `s`; no other block changes, and in the block of `s` only the bytes
that receive `elems` change, so the header words and the padding in front of
the slice are as before. -/
theorem C9_Append_in_place (rt : Runtime) (h : Heap) (s : Slice) (elems : List Byte)
    (hv : h.valid s) (hfit : s.len + elems.length ≤ s.cap) :
    ∃ h' s', s.Append rt h elems = some (h', s') ∧
      s'.blk = s.blk ∧ s'.off = s.off ∧ s'.cap = s.cap ∧ s'.Pad h' = s.Pad h ∧
      (∀ i, i ≠ s.blk → h'[i]? = h[i]?) ∧
      ∃ b b', h[s.blk]? = some b ∧ h'[s.blk]? = some b' ∧ b'.length = b.length ∧
        (∀ i, i < s.off + s.len ∨ s.off + s.len + elems.length ≤ i → b'[i]? = b[i]?) ∧
        window b' 0 s.off = window b 0 s.off := by
  obtain ⟨hlc, b, hb, hcap⟩ := hv
  have ha : s.Append rt h elems = goAppend rt h s elems := by
    unfold Slice.Append
    rw [if_neg (by omega)]
  rw [goAppend_inplace rt h s elems b hb hcap hfit] at ha
  have hin : s.off + s.len + elems.length ≤ b.length := by omega
  have hsp : (splice b (s.off + s.len) elems).length = b.length := splice_length _ _ _ hin
  have hg := get_set_same h s.blk b (splice b (s.off + s.len) elems) hb
  have hfront : ∀ o n, o + n ≤ s.off →
      window (splice b (s.off + s.len) elems) o n = window b o n :=
    fun o n hon => window_splice_disjoint _ _ _ _ _ hin (Or.inl (by omega))
  refine ⟨_, _, ha, rfl, rfl, rfl, ?_, fun i hi => get_set_other h s.blk i _ hi,
    b, _, hb, hg, hsp, ?_, hfront 0 s.off (by omega)⟩
  · unfold Slice.Pad
    simp only [hg, hb, hsp]
    by_cases hc : wordSize ≤ s.off ∧ s.off ≤ b.length
    · rw [if_pos hc, if_pos hc, hfront _ _ (by omega)]
    · rw [if_neg hc, if_neg hc]
  · intro i hi
    rw [splice_getElem? _ _ _ _ hin]
    split
    · rfl
    · rw [if_neg (by omega)]

/-- Claim C9, witness: one byte appended to `sampleSlice`, which then is full. -/
theorem C9_Append_in_place_witness :
    sampleHeap.valid sampleSlice ∧
    sampleSlice.len + ([7] : List Byte).length ≤ sampleSlice.cap ∧
    ∃ h' s', sampleSlice.Append exactRuntime sampleHeap [7] = some (h', s') ∧
      s'.blk = sampleSlice.blk ∧ s'.off = sampleSlice.off ∧ s'.cap = sampleSlice.cap ∧
      s'.Pad h' = sampleSlice.Pad sampleHeap ∧
      (∀ i, i ≠ sampleSlice.blk → h'[i]? = sampleHeap[i]?) ∧
      ∃ b b', sampleHeap[sampleSlice.blk]? = some b ∧ h'[sampleSlice.blk]? = some b' ∧
        b'.length = b.length ∧
        (∀ i, i < sampleSlice.off + sampleSlice.len ∨
            sampleSlice.off + sampleSlice.len + ([7] : List Byte).length ≤ i →
          b'[i]? = b[i]?) ∧
        window b' 0 sampleSlice.off = window b 0 sampleSlice.off :=
  ⟨⟨by decide, _, rfl, by decide⟩, by decide,
    C9_Append_in_place exactRuntime sampleHeap sampleSlice [7]
      ⟨by decide, _, rfl, by decide⟩ (by decide)⟩

/-- Claim C10: whatever the `wordSize` bytes in front of a slice hold, the varint
`Pad` decodes from them is below `2 ^ (7 * wordSize)`, so `Pad()` is that value
times `wordSize` exactly, without overflow of the `int`: it is below `2 ^ 63`, not
negative and a multiple of `wordSize`; and it is 0 when no byte of the word
terminates the varint. -/
theorem C10_Pad_multiple (h : Heap) (s : Slice) (b : List Byte) (hb : h[s.blk]? = some b)
    (h1 : wordSize ≤ s.off) (h2 : s.off ≤ b.length) :
    ∃ (d : Nat) (p : Int), (Uvarint (window b (s.off - wordSize) wordSize)).1 = d ∧
      d < 2 ^ (7 * wordSize) ∧ s.Pad h = some p ∧ p = (d : Int) * (wordSize : Int) ∧
      p < 2 ^ 63 ∧ 0 ≤ p ∧ p % (wordSize : Int) = 0 ∧
      ((∀ x ∈ window b (s.off - wordSize) wordSize, 0x80 ≤ x.val) → p = 0) := by
  have hlt := Uvarint_window_lt b (s.off - wordSize)
  have hpad := Pad_eq h s b hb h1 h2
  refine ⟨_, _, rfl, hlt, hpad, by push_cast; rfl, ?_, by positivity, ?_, ?_⟩
  · unfold wordSize at hlt ⊢
    norm_num at hlt
    push_cast
    omega
  · simp
  · intro hall
    have hz : Uvarint (window b (s.off - wordSize) wordSize) = (0, 0) := by
      unfold Uvarint
      apply UvarintLoop_no_terminator _ _ _ _ hall
      have := window_length_le b (s.off - wordSize) wordSize
      unfold wordSize at this ⊢
      omega
    rw [hz]
    rfl

/-- Claim C10, witness: the header word in front of `sampleSlice`. -/
theorem C10_Pad_multiple_witness :
    sampleHeap[sampleSlice.blk]? =
      some [0, 0, 0, 0, 0, 0, 0, 0, 1, 0, 0, 0, 0, 0, 0, 0, 0, 0] ∧
    wordSize ≤ sampleSlice.off ∧
    sampleSlice.off ≤
      ([0, 0, 0, 0, 0, 0, 0, 0, 1, 0, 0, 0, 0, 0, 0, 0, 0, 0] : List Byte).length ∧
    ∃ (d : Nat) (p : Int),
      (Uvarint (window [0, 0, 0, 0, 0, 0, 0, 0, 1, 0, 0, 0, 0, 0, 0, 0, 0, 0]
        (sampleSlice.off - wordSize) wordSize)).1 = d ∧
      d < 2 ^ (7 * wordSize) ∧ sampleSlice.Pad sampleHeap = some p ∧
      p = (d : Int) * (wordSize : Int) ∧ p < 2 ^ 63 ∧ 0 ≤ p ∧ p % (wordSize : Int) = 0 ∧
      ((∀ x ∈ window [0, 0, 0, 0, 0, 0, 0, 0, 1, 0, 0, 0, 0, 0, 0, 0, 0, 0]
          (sampleSlice.off - wordSize) wordSize, 0x80 ≤ x.val) → p = 0) :=
  ⟨rfl, by decide, by decide,
    C10_Pad_multiple sampleHeap sampleSlice _ rfl (by decide) (by decide)⟩

/-- Claim C11, counterexample: the slice of `Make(1, 2, 8)` has a block of 18
bytes and is freed into the empty pool.  A request `(16, 16, 0)`, each number at
most 18, is served from a new block, and a request `(1, 2, 0)` is served from
the freed block but starts at another byte of it. -/
theorem C11_no_reuse_or_other_address :
    Pool.Free ⟨[]⟩ sampleHeap sampleSlice = some samplePool ∧
    sampleHeap[sampleSlice.blk]?.map List.length = some 18 ∧
    ((16 ≤ 18 ∧ 0 ≤ 18) ∧ ∃ p' h' s,
      Pool.Make samplePool sampleHeap (some 0) 16 16 0 = some (p', h', s) ∧
      s.blk ≠ sampleSlice.blk) ∧
    ((1 ≤ 18 ∧ 2 ≤ 18 ∧ 0 ≤ 18) ∧ ∃ p' h' s,
      Pool.Make samplePool sampleHeap (some 0) 1 2 0 = some (p', h', s) ∧
      s.blk = sampleSlice.blk ∧ s.off ≠ sampleSlice.off) := by
  refine ⟨by decide, by decide, ⟨by decide, ?_⟩, ⟨by decide, ?_⟩⟩
  · exact ⟨⟨[]⟩, sampleHeap ++ [List.replicate 24 0], ⟨1, 8, 16, 16⟩, by decide, by decide⟩
  · exact ⟨⟨[]⟩, sampleHeap, ⟨0, 8, 1, 2⟩, by decide, by decide, by decide⟩

/-- Claim C11, amended: for every slice `b` of a program that requests capacities
above 0, `Free(b)` puts the block from the origin of `b`'s block to the end of
`b`'s capacity into the pool, of length `b.Pad() + wordSize + cap(b)`; a
following `Pool.Make(len, cap, pad)` with `cap > 0` to which the pool yields that
block returns (exactly when `len ≤ cap` and the padding words can be numbered) a
slice in that block if and only if `roundPad pad + cap + wordSize` is at most that
length, and the first byte of the slice is the first byte of `b` if and only if,
in addition, `roundPad pad` equals `b.Pad()`. -/
theorem C11_reuse_after_Free (rt : Runtime) (p : Pool) (h : Heap) (b : Slice)
    (len cap pad : Nat) (hr : Reachable rt h b) (hcap : 0 < cap) :
    ∃ B sp, Pool.Free p h b = some ⟨B :: p.items⟩ ∧ b.Pad h = some sp ∧
      B.blk = b.blk ∧ B.off = 0 ∧ (B.len : Int) = sp + wordSize + b.cap ∧
      ((∃ r, Pool.Make ⟨B :: p.items⟩ h (some 0) len cap pad = some r) ↔
        (len ≤ cap ∧ roundPad pad / wordSize < 2 ^ (7 * wordSize))) ∧
      ∀ p' h' s, Pool.Make ⟨B :: p.items⟩ h (some 0) len cap pad = some (p', h', s) →
        p' = p ∧
        (s.blk = b.blk ↔ roundPad pad + cap + wordSize ≤ B.len) ∧
        ((s.blk = b.blk ∧ s.off = b.off) ↔
          (roundPad pad + cap + wordSize ≤ B.len ∧ (roundPad pad : Int) = sp)) := by
  simp only [Pool_put_eq]
  have hl := Reachable_Layout rt h b hr
  have hpad := Layout_Pad h b hl
  have hfree := Free_Layout p h b hl
  obtain ⟨⟨hlcb, blk, hblk, hcapb⟩, h8, hdvd, hw⟩ := hl
  have hblt := get_lt h _ _ hblk
  set B : Slice := ⟨b.blk, 0, b.cap + b.off, b.cap + b.off⟩ with hBdef
  have hB0 : (p.put B).items[0]? = some B := by simp [Pool.put]
  have hvB : h.valid B := ⟨le_refl _, blk, hblk, by simp only [hBdef]; omega⟩
  have hcases : ∀ p' h' s, Pool.Make (p.put B) h (some 0) len cap pad = some (p', h', s) →
      p' = p ∧
      ((roundPad pad + cap + wordSize ≤ B.len ∧ s.blk = b.blk ∧
          s.off = roundPad pad + wordSize) ∨
        (¬ roundPad pad + cap + wordSize ≤ B.len ∧ s.blk = h.length)) := by
    intro p' h' s hm
    obtain ⟨hlc, hp⟩ := PoolMake_some_bounds _ _ _ _ _ _ _ _ _ hm
    by_cases hfit : roundPad pad + cap + wordSize ≤ B.len
    · obtain ⟨b1, b2, _, _, hpm⟩ := PoolMake_reuse_some (p.put B) h 0 len cap pad B hB0 hvB
        hfit hlc hp
      rw [hpm] at hm
      simp only [Option.some.injEq, Prod.mk.injEq] at hm
      obtain ⟨e1, e2, e3⟩ := hm
      subst e1 e2 e3
      exact ⟨rfl, Or.inl ⟨hfit, rfl, by rw [slicePtr_pos _ _ _ hcap]; simp [hBdef]⟩⟩
    · obtain ⟨blk', hpm⟩ := PoolMake_fresh_some (p.put B) _ h (some 0) len cap pad
        (Pool_get_short (p.put B) 0 (roundPad pad + cap + wordSize) B hB0 (by omega)) hlc hp
      rw [hpm] at hm
      simp only [Option.some.injEq, Prod.mk.injEq] at hm
      obtain ⟨e1, e2, e3⟩ := hm
      subst e1 e2 e3
      exact ⟨rfl, Or.inr ⟨hfit, rfl⟩⟩
  refine ⟨B, _, hfree, hpad, rfl, rfl, ?_, ?_, ?_⟩
  · simp only [hBdef]
    push_cast [Nat.cast_sub h8]
    omega
  · constructor
    · rintro ⟨⟨p', h', s⟩, hm⟩
      exact PoolMake_some_bounds _ _ _ _ _ _ _ _ _ hm
    · rintro ⟨hlc, hp⟩
      by_cases hfit : roundPad pad + cap + wordSize ≤ B.len
      · obtain ⟨b1, b2, _, _, hpm⟩ := PoolMake_reuse_some (p.put B) h 0 len cap pad B hB0 hvB
          hfit hlc hp
        exact ⟨_, hpm⟩
      · obtain ⟨blk', hpm⟩ := PoolMake_fresh_some (p.put B) _ h (some 0) len cap pad
          (Pool_get_short (p.put B) 0 (roundPad pad + cap + wordSize) B hB0 (by omega)) hlc hp
        exact ⟨_, hpm⟩
  · intro p' h' s hm
    obtain ⟨hp', hc⟩ := hcases p' h' s hm
    refine ⟨hp', ?_, ?_⟩
    · rcases hc with ⟨hfit, hb1, _⟩ | ⟨hfit, hb1⟩
      · exact ⟨fun _ => hfit, fun _ => hb1⟩
      · exact ⟨fun hx => by omega, fun hx => absurd hx hfit⟩
    · rcases hc with ⟨hfit, hb1, hoff⟩ | ⟨hfit, hb1⟩
      · constructor
        · rintro ⟨_, ho⟩
          refine ⟨hfit, ?_⟩
          rw [hoff] at ho
          push_cast [Nat.cast_sub h8]
          omega
        · rintro ⟨_, hsp⟩
          refine ⟨hb1, ?_⟩
          rw [hoff]
          push_cast [Nat.cast_sub h8] at hsp
          omega
      · exact ⟨fun hx => by omega, fun hx => absurd hx.1 hfit⟩

/-- Claim C11, witness: the slice of `Make(1, 2, 8)` after another allocation and
an in-place `Prepend` of eight bytes, which leaves it no padding; it is freed and
a slice of capacity 2 and padding 8 is requested.  The request fills the block
and is served from it, eight bytes behind the first byte of the freed slice. -/
theorem C11_reuse_after_Free_witness :
    Reachable exactRuntime usedHeap usedSlice ∧ 0 < 2 ∧
    ∃ B sp, Pool.Free ⟨[]⟩ usedHeap usedSlice = some ⟨[B]⟩ ∧
      usedSlice.Pad usedHeap = some sp ∧
      B.blk = usedSlice.blk ∧ B.off = 0 ∧ (B.len : Int) = sp + wordSize + usedSlice.cap ∧
      ((∃ r, Pool.Make ⟨[B]⟩ usedHeap (some 0) 1 2 8 = some r) ↔
        (1 ≤ 2 ∧ roundPad 8 / wordSize < 2 ^ (7 * wordSize))) ∧
      ∀ p' h' s, Pool.Make ⟨[B]⟩ usedHeap (some 0) 1 2 8 = some (p', h', s) →
        p' = ⟨[]⟩ ∧
        (s.blk = usedSlice.blk ↔ roundPad 8 + 2 + wordSize ≤ B.len) ∧
        ((s.blk = usedSlice.blk ∧ s.off = usedSlice.off) ↔
          (roundPad 8 + 2 + wordSize ≤ B.len ∧ (roundPad 8 : Int) = sp)) :=
  have hr : Reachable exactRuntime usedHeap usedSlice :=
    @Reachable.prepend exactRuntime (sampleHeap ++ [[0]]) usedHeap sampleSlice usedSlice
      [1, 2, 3, 4, 5, 6, 7, 8]
      (Reachable.other
        (@Reachable.make exactRuntime [] sampleHeap sampleSlice 1 2 8 (by decide) (by decide))
        (fun b hb => ⟨b, hb, rfl, rfl⟩))
      (by decide)
  ⟨hr, by decide, C11_reuse_after_Free exactRuntime ⟨[]⟩ usedHeap usedSlice 1 2 8 hr (by decide)⟩

/-- Claim C12, counterexample: the block of `Make(1, 2, 8)` has 18 bytes and is
freed with that length; `Pool.Make(1, 2, 0)` reuses it, and freeing the slice it
returns puts back the same block with length 10. -/
theorem C12_spare_block_shrinks :
    Make [] 1 2 8 = some (sampleHeap, sampleSlice) ∧
    Pool.Free ⟨[]⟩ sampleHeap sampleSlice = some ⟨[⟨0, 0, 18, 18⟩]⟩ ∧
    Pool.Make ⟨[⟨0, 0, 18, 18⟩]⟩ sampleHeap (some 0) 1 2 0 =
      some (⟨[]⟩, sampleHeap, ⟨0, 8, 1, 2⟩) ∧
    Pool.Free ⟨[]⟩ sampleHeap ⟨0, 8, 1, 2⟩ = some ⟨[⟨0, 0, 10, 10⟩]⟩ ∧
    (⟨0, 0, 10, 10⟩ : Slice).len ≠ (⟨0, 0, 18, 18⟩ : Slice).len := by
  refine ⟨by decide, by decide, by decide, by decide, by decide⟩

/-- Claim C12, amended: for every slice `s1` from `Make(len1, cap1, pad1)` with
`cap1 > 0`, whatever the program has allocated or written outside the header
words and padding of `s1` since, and every request `(len, cap, pad)` with
`cap > 0` that `Pool.Make` satisfies by reusing the block freed from `s1`, freeing
the reused slice puts back the same block, from its origin, with length
`roundPad pad + wordSize + cap`: at most the length
`roundPad pad1 + wordSize + cap1` of the block that was taken, and equal to it
only when the request fills the block. -/
theorem C12_Free_Make_Free (p p1 p2 : Pool) (h0 h1 h h2 : Heap) (s1 s2 : Slice)
    (len1 cap1 pad1 len cap pad : Nat) (hcap1 : 0 < cap1) (hcap : 0 < cap)
    (hm : Make h0 len1 cap1 pad1 = some (h1, s1)) (hk : h1.keeps h s1)
    (hf : Pool.Free p h s1 = some p1)
    (hpm : Pool.Make p1 h (some 0) len cap pad = some (p2, h2, s2))
    (hre : s2.blk = s1.blk) :
    ∃ B1 B2, p1 = ⟨B1 :: p.items⟩ ∧ B1.blk = s1.blk ∧ B1.off = 0 ∧
      B1.len = roundPad pad1 + wordSize + cap1 ∧ p2 = p ∧
      Pool.Free p2 h2 s2 = some ⟨B2 :: p2.items⟩ ∧ B2.blk = B1.blk ∧ B2.off = 0 ∧
      B2.len = roundPad pad + wordSize + cap ∧ B2.len ≤ B1.len ∧
      (B2.len = B1.len ↔ roundPad pad + cap = roundPad pad1 + cap1) := by
  simp only [Pool_put_eq]
  obtain ⟨hlc1, hp1⟩ := Make_some_bounds _ _ _ _ _ _ hm
  have hl0 := Layout_Make _ _ _ _ _ _ hcap1 hm
  have hl1 := Layout_keeps _ _ _ hl0 hk
  obtain ⟨blk, hm', hbl, _⟩ := Make_spec_pos h0 len1 cap1 pad1 hcap1 hlc1 hp1
  rw [hm'] at hm
  simp only [Option.some.injEq, Prod.mk.injEq] at hm
  obtain ⟨e1, e2⟩ := hm
  subst e1 e2
  obtain ⟨b', hb', hbl', _⟩ := hk blk (heap_get_new h0 blk)
  simp only [] at hb'
  have hblt := get_lt h _ _ hb'
  rw [Free_Layout p _ _ hl1] at hf
  simp only [Option.some.injEq] at hf
  subst hf
  set B1 : Slice := ⟨h0.length, 0, cap1 + (roundPad pad1 + wordSize),
    cap1 + (roundPad pad1 + wordSize)⟩ with hB1
  have hB0 : (p.put B1).items[0]? = some B1 := by simp [Pool.put]
  have hvB : Heap.valid h B1 :=
    ⟨le_refl _, b', hb', by simp only [hB1, hbl', hbl]; omega⟩
  have hvs : Heap.spare h B1 := ⟨hvB, rfl⟩
  obtain ⟨hlc, hp⟩ := PoolMake_some_bounds _ _ _ _ _ _ _ _ _ hpm
  have hfit : roundPad pad + cap + wordSize ≤ B1.len := by
    by_contra hc
    obtain ⟨blk', hpm'⟩ := PoolMake_fresh_some (p.put B1) _ h (some 0) len cap pad
      (Pool_get_short (p.put B1) 0 (roundPad pad + cap + wordSize) B1 hB0 (by omega)) hlc hp
    rw [hpm'] at hpm
    simp only [Option.some.injEq, Prod.mk.injEq] at hpm
    obtain ⟨_, _, e3⟩ := hpm
    subst e3
    simp only [] at hre
    omega
  have hg := Pool_get_some (p.put B1) 0 (roundPad pad + cap + wordSize) B1 hB0 hfit
  rw [PoolMake_reuse (p.put B1) _ _ (some 0) len cap pad B1 hg] at hpm
  cases hrl : realloc h B1 len cap (roundPad pad) with
  | none => simp [hrl] at hpm
  | some r =>
    obtain ⟨hr1, hr2⟩ := r
    simp only [hrl, Option.map_some', Option.some.injEq, Prod.mk.injEq] at hpm
    obtain ⟨e1, e2, e3⟩ := hpm
    subst e1 e2 e3
    have hl2 := Layout_realloc _ _ B1 _ len cap (roundPad pad) hvs hcap (roundPad_dvd pad) hrl
    obtain ⟨h', hrl', _, _⟩ := realloc_result h B1 len cap (roundPad pad) hvB
      (roundPad_dvd pad) (by simp only [hB1] at hfit ⊢; omega) hcap hlc hp
    rw [hrl'] at hrl
    simp only [Option.some.injEq, Prod.mk.injEq] at hrl
    obtain ⟨e1, e2⟩ := hrl
    subst e1 e2
    refine ⟨B1, _, rfl, rfl, rfl, by simp only [hB1]; omega, ?_, Free_Layout _ _ _ hl2,
      rfl, rfl, ?_, ?_, ?_⟩
    · simp [Pool.put]
    · simp only [hB1]
      omega
    · simp only [hB1] at hfit ⊢
      omega
    · simp only [hB1]
      constructor <;> intro hx <;> omega

/-- Claim C12, witness: the cycle of `C12_spare_block_shrinks`, with one more
block allocated between `Make` and `Free`. -/
theorem C12_Free_Make_Free_witness :
    0 < 2 ∧ 0 < 2 ∧
    Make [] 1 2 8 = some (sampleHeap, sampleSlice) ∧
    sampleHeap.keeps (sampleHeap ++ [[0]]) sampleSlice ∧
    Pool.Free ⟨[]⟩ (sampleHeap ++ [[0]]) sampleSlice = some samplePool ∧
    Pool.Make samplePool (sampleHeap ++ [[0]]) (some 0) 1 2 0 =
      some (⟨[]⟩, sampleHeap ++ [[0]], ⟨0, 8, 1, 2⟩) ∧
    (⟨0, 8, 1, 2⟩ : Slice).blk = sampleSlice.blk ∧
    ∃ B1 B2, samplePool = ⟨[B1]⟩ ∧ B1.blk = sampleSlice.blk ∧ B1.off = 0 ∧
      B1.len = roundPad 8 + wordSize + 2 ∧ (⟨[]⟩ : Pool) = ⟨[]⟩ ∧
      Pool.Free ⟨[]⟩ (sampleHeap ++ [[0]]) ⟨0, 8, 1, 2⟩ = some ⟨[B2]⟩ ∧
      B2.blk = B1.blk ∧ B2.off = 0 ∧
      B2.len = roundPad 0 + wordSize + 2 ∧ B2.len ≤ B1.len ∧
      (B2.len = B1.len ↔ roundPad 0 + 2 = roundPad 8 + 2) :=
  ⟨by decide, by decide, by decide, fun b hb => ⟨b, hb, rfl, rfl⟩, by decide, by decide,
    by decide,
    C12_Free_Make_Free ⟨[]⟩ samplePool ⟨[]⟩ [] sampleHeap (sampleHeap ++ [[0]])
      (sampleHeap ++ [[0]]) sampleSlice ⟨0, 8, 1, 2⟩
      1 2 8 1 2 0 (by decide) (by decide) (by decide) (fun b hb => ⟨b, hb, rfl, rfl⟩)
      (by decide) (by decide) (by decide)⟩

/-- Claim C13 is broken by the code at `Make(0, 0, 16)` and at
`Pool.Make(0, 0, 8)` on the pool that holds the block freed from `Make(1, 2, 8)`:
the slice returned has capacity 0 and its first byte is the origin of its block,
so the distance from the origin is 0, less than `wordSize`, and it is not
`Pad() + wordSize`, `Pad()` being decoded from in front of the block. -/
theorem C13_zero_capacity_at_origin :
    Make [] 0 0 16 = some (zeroCapHeap, zeroCapSlice) ∧
    zeroCapSlice.off = 0 ∧ ¬ wordSize ≤ zeroCapSlice.off ∧
    (∀ p, zeroCapSlice.Pad zeroCapHeap ≠ some p) ∧
    ∃ s, Pool.Make samplePool sampleHeap (some 0) 0 0 8 = some (⟨[]⟩, sampleHeap, s) ∧
      s.off = 0 ∧ ¬ wordSize ≤ s.off ∧ ∀ p, s.Pad sampleHeap ≠ some p := by
  have h1 : zeroCapSlice.Pad zeroCapHeap = none := by decide
  have h2 : Slice.Pad sampleHeap ⟨0, 0, 0, 0⟩ = none := by decide
  refine ⟨by decide, rfl, by decide, fun p hp => ?_, ⟨0, 0, 0, 0⟩, by decide, rfl, by decide,
    fun p hp => ?_⟩
  · rw [h1] at hp
    exact Option.noConfusion hp
  · rw [h2] at hp
    exact Option.noConfusion hp

/-- Claim C15, counterexample: after `Make(1, 2, 8)` the rounded padding is one
word, yet the word at offset 0 of the block does not hold the varint of 1: it
holds the varint of 0, and the varint of 1 is in the word at offset 8. -/
theorem C15_word_zero_holds_zero :
    Make [] 1 2 8 = some (sampleHeap, sampleSlice) ∧ roundPad 8 / wordSize = 1 ∧
    sampleHeap[sampleSlice.blk]? =
      some [0, 0, 0, 0, 0, 0, 0, 0, 1, 0, 0, 0, 0, 0, 0, 0, 0, 0] ∧
    ¬ holdsUvarint (window [0, 0, 0, 0, 0, 0, 0, 0, 1, 0, 0, 0, 0, 0, 0, 0, 0, 0] 0 wordSize)
      (roundPad 8 / wordSize) ∧
    holdsUvarint (window [0, 0, 0, 0, 0, 0, 0, 0, 1, 0, 0, 0, 0, 0, 0, 0, 0, 0] 0 wordSize) 0 ∧
    holdsUvarint (window [0, 0, 0, 0, 0, 0, 0, 0, 1, 0, 0, 0, 0, 0, 0, 0, 0, 0] 8 wordSize)
      (roundPad 8 / wordSize) := by
  refine ⟨by decide, by decide, rfl, by decide, by decide, by decide⟩

/-- Claim C15, amended: `Make(len, cap, pad)` returns (exactly when `len ≤ cap` and
the padding words can be numbered) a slice in a new block, and in that block the
word at offset `roundPad pad`, which for `cap > 0` is the word immediately in
front of the slice, holds the varint of `roundPad pad / wordSize`; every word `j`
up to it holds the varint of `j`, so the word at offset 0 holds the varint of 0,
and it holds that of `roundPad pad / wordSize` only when the rounded padding is
0. -/
theorem C15_header_words (h : Heap) (len cap pad : Nat) :
    ((∃ r, Make h len cap pad = some r) ↔
      (len ≤ cap ∧ roundPad pad / wordSize < 2 ^ (7 * wordSize))) ∧
    ∀ h' s, Make h len cap pad = some (h', s) →
      ∃ blk, s.blk = h.length ∧ h'[s.blk]? = some blk ∧
        blk.length = roundPad pad + wordSize + cap ∧
        (0 < cap → s.off = roundPad pad + wordSize) ∧
        holdsUvarint (window blk (roundPad pad) wordSize) (roundPad pad / wordSize) ∧
        (∀ j, j ≤ roundPad pad / wordSize →
          holdsUvarint (window blk (j * wordSize) wordSize) j) ∧
        holdsUvarint (window blk 0 wordSize) 0 ∧
        (holdsUvarint (window blk 0 wordSize) (roundPad pad / wordSize) ↔
          roundPad pad = 0) := by
  have hdvd := roundPad_dvd pad
  constructor
  · constructor
    · rintro ⟨⟨h', s⟩, hm⟩
      exact Make_some_bounds h h' len cap pad s hm
    · rintro ⟨hlc, hp⟩
      obtain ⟨blk, hm, _⟩ := Make_spec h len cap pad hlc hp
      exact ⟨_, hm⟩
  · intro h' s hm0
    obtain ⟨hlc, hp⟩ := Make_some_bounds h h' len cap pad s hm0
    obtain ⟨s', hs', hsl, hm⟩ := Make_eval h len cap pad hlc hp
    rw [hm] at hm0
    simp only [Option.some.injEq, Prod.mk.injEq] at hm0
    obtain ⟨e1, e2⟩ := hm0
    subst e1 e2
    have hmul : (0 + (roundPad pad / wordSize + 1)) * wordSize ≤
        (List.replicate (roundPad pad + wordSize) (0 : Byte)).length := by
      simp only [List.length_replicate]
      unfold wordSize at *
      omega
    have hh := initPaddingLoop_holds _ _ _ _ hmul hs'
    have hword : ∀ j, j ≤ roundPad pad / wordSize →
        holdsUvarint (window (s' ++ List.replicate cap 0) (j * wordSize) wordSize) j := by
      intro j hj
      have hwin : window (s' ++ List.replicate cap 0) (j * wordSize) wordSize =
          window s' (j * wordSize) wordSize := by
        have h1 := window_window (s' ++ List.replicate cap 0) 0 s'.length (j * wordSize) wordSize
          (by rw [hsl]; unfold wordSize at *; omega)
        rw [window_append_left, Nat.zero_add] at h1
        exact h1.symm
      rw [hwin]
      exact hh j (Nat.zero_le _) (by omega)
    have h0 := hword 0 (Nat.zero_le _)
    rw [Nat.zero_mul] at h0
    have hlast := hword (roundPad pad / wordSize) (le_refl _)
    have e : roundPad pad / wordSize * wordSize = roundPad pad := by
      unfold wordSize at *
      omega
    rw [e] at hlast
    refine ⟨_, rfl, heap_get_new h _, by simp [hsl],
      fun hc => by simp only [slicePtr_pos _ _ _ hc, Nat.zero_add], hlast, hword, h0, ?_⟩
    have hl8 : (window (s' ++ List.replicate cap 0) 0 wordSize).length ≤ 9 := by
      have := window_length_le (s' ++ List.replicate cap 0) 0 wordSize
      have h8 : wordSize = 8 := rfl
      omega
    constructor
    · intro hn
      have d0 := Uvarint_of_holds _ _ hl8 h0
      have dn := Uvarint_of_holds _ _ hl8 hn
      rw [d0] at dn
      unfold wordSize at *
      omega
    · intro hz
      rw [hz]
      exact h0

/-- Claim C15, witness: `Make(2, 4, 9)` on empty memory, which returns. -/
theorem C15_header_words_witness :
    (∃ r, Make [] 2 4 9 = some r) ∧
    ∀ h' s, Make [] 2 4 9 = some (h', s) →
      ∃ blk, s.blk = ([] : Heap).length ∧ h'[s.blk]? = some blk ∧
        blk.length = roundPad 9 + wordSize + 4 ∧
        (0 < 4 → s.off = roundPad 9 + wordSize) ∧
        holdsUvarint (window blk (roundPad 9) wordSize) (roundPad 9 / wordSize) ∧
        (∀ j, j ≤ roundPad 9 / wordSize →
          holdsUvarint (window blk (j * wordSize) wordSize) j) ∧
        holdsUvarint (window blk 0 wordSize) 0 ∧
        (holdsUvarint (window blk 0 wordSize) (roundPad 9 / wordSize) ↔ roundPad 9 = 0) :=
  ⟨(C15_header_words [] 2 4 9).1.2 ⟨by decide, by decide⟩, (C15_header_words [] 2 4 9).2⟩

/-- Claim C17: when the block `B` the pool yields is shorter than
`roundPad pad + cap + wordSize`, `Pool.Make` returns (exactly when `len ≤ cap` and
the padding words can be numbered) a slice in a new block and leaves the pool
without the item it took; no item over the block of `B` is left when no block
was spare twice, a following request is not served from that block, and when
`B` was the only spare block every following request, also one `B` could have
satisfied, is served from a new block. -/
theorem C17_short_block_discarded (p : Pool) (h : Heap) (i : Nat) (B : Slice)
    (len cap pad : Nat) (hB : p.items[i]? = some B)
    (hshort : B.len < roundPad pad + cap + wordSize) :
    ((∃ r, Pool.Make p h (some i) len cap pad = some r) ↔
      (len ≤ cap ∧ roundPad pad / wordSize < 2 ^ (7 * wordSize))) ∧
    ∀ p' h' s, Pool.Make p h (some i) len cap pad = some (p', h', s) →
      s.blk = h.length ∧ h'.length = h.length + 1 ∧ p'.items = p.items.eraseIdx i ∧
      (((p.items.map Slice.blk).Nodup ∧ ∀ C ∈ p.items, h.valid C) →
        (∀ C ∈ p'.items, C.blk ≠ B.blk) ∧
        ∀ pick2 len2 cap2 pad2 p'' h'' s2,
          Pool.Make p' h' pick2 len2 cap2 pad2 = some (p'', h'', s2) → s2.blk ≠ B.blk) ∧
      (p.items = [B] → p'.items = [] ∧
        ∀ pick2 len2 cap2 pad2 p'' h'' s2,
          Pool.Make p' h' pick2 len2 cap2 pad2 = some (p'', h'', s2) →
          s2.blk = h'.length ∧ h''.length = h'.length + 1) := by
  have hg := Pool_get_short p i (roundPad pad + cap + wordSize) B hB hshort
  constructor
  · constructor
    · rintro ⟨⟨p', h', s⟩, hm⟩
      exact PoolMake_some_bounds _ _ _ _ _ _ _ _ _ hm
    · rintro ⟨hlc, hp⟩
      obtain ⟨blk, hpm⟩ := PoolMake_fresh_some p _ h (some i) len cap pad hg hlc hp
      exact ⟨_, hpm⟩
  · intro p' h' s hm
    obtain ⟨hlc, hp⟩ := PoolMake_some_bounds _ _ _ _ _ _ _ _ _ hm
    obtain ⟨blk, hpm⟩ := PoolMake_fresh_some p _ h (some i) len cap pad hg hlc hp
    have hm0 := hm
    rw [hpm] at hm
    simp only [Option.some.injEq, Prod.mk.injEq] at hm
    obtain ⟨e1, e2, e3⟩ := hm
    subst e1 e2 e3
    refine ⟨rfl, by simp, rfl, ?_, ?_⟩
    · rintro ⟨hd, hv⟩
      have hne : ∀ C ∈ p.items.eraseIdx i, C.blk ≠ B.blk :=
        eraseIdx_ne_of_nodup Slice.blk p.items i B hd hB
      refine ⟨hne, ?_⟩
      intro pick2 len2 cap2 pad2 p'' h'' s2 hm2
      obtain ⟨hv1, hd1, _, _, _, _, _⟩ :=
        PoolMake_wf p _ h _ (some i) len cap pad _ hv hd hm0
      obtain ⟨_, _, _, _, _, _, hor⟩ :=
        PoolMake_wf _ p'' _ h'' pick2 len2 cap2 pad2 s2 hv1 hd1 hm2
      rcases hor with ⟨C, hC, hCs⟩ | hfresh
      · rw [← hCs]
        exact hne C hC
      · obtain ⟨_, c, hc, _⟩ := hv B (List.getElem?_mem hB)
        have := get_lt h _ _ hc
        simp only [List.length_append, List.length_singleton] at hfresh
        omega
    · intro hone
      have hi0 : i = 0 := by
        rw [hone] at hB
        cases i with
        | zero => rfl
        | succ j => simp at hB
      subst hi0
      have hnil : p.items.eraseIdx 0 = [] := by rw [hone]; rfl
      refine ⟨hnil, ?_⟩
      intro pick2 len2 cap2 pad2 p'' h'' s2 hm2
      have hvnil : ∀ C ∈ (⟨p.items.eraseIdx 0⟩ : Pool).items, Heap.valid (h ++ [blk]) C := by
        intro C hC
        simp only [hnil] at hC
        exact absurd hC (List.not_mem_nil C)
      rcases PoolMake_step _ p'' _ h'' pick2 len2 cap2 pad2 s2 hvnil hm2 with
        ⟨j, C, _, _, _, hC, _⟩ | ⟨blk2, _, hh2, hs2⟩
      · simp only [hnil] at hC
        simp at hC
      · subst hh2 hs2
        exact ⟨rfl, by simp⟩

/-- Claim C17, witness: a request of capacity 16 to `samplePool`, whose block has
18 bytes. -/
theorem C17_short_block_discarded_witness :
    samplePool.items[0]? = some ⟨0, 0, 18, 18⟩ ∧
    (⟨0, 0, 18, 18⟩ : Slice).len < roundPad 0 + 16 + wordSize ∧
    (((∃ r, Pool.Make samplePool sampleHeap (some 0) 16 16 0 = some r) ↔
      (16 ≤ 16 ∧ roundPad 0 / wordSize < 2 ^ (7 * wordSize))) ∧
    ∀ p' h' s, Pool.Make samplePool sampleHeap (some 0) 16 16 0 = some (p', h', s) →
      s.blk = sampleHeap.length ∧ h'.length = sampleHeap.length + 1 ∧
      p'.items = samplePool.items.eraseIdx 0 ∧
      (((samplePool.items.map Slice.blk).Nodup ∧ ∀ C ∈ samplePool.items, sampleHeap.valid C) →
        (∀ C ∈ p'.items, C.blk ≠ (⟨0, 0, 18, 18⟩ : Slice).blk) ∧
        ∀ pick2 len2 cap2 pad2 p'' h'' s2,
          Pool.Make p' h' pick2 len2 cap2 pad2 = some (p'', h'', s2) →
          s2.blk ≠ (⟨0, 0, 18, 18⟩ : Slice).blk) ∧
      (samplePool.items = [⟨0, 0, 18, 18⟩] → p'.items = [] ∧
        ∀ pick2 len2 cap2 pad2 p'' h'' s2,
          Pool.Make p' h' pick2 len2 cap2 pad2 = some (p'', h'', s2) →
          s2.blk = h'.length ∧ h''.length = h'.length + 1)) :=
  ⟨rfl, by decide,
    C17_short_block_discarded samplePool sampleHeap 0 ⟨0, 0, 18, 18⟩ 16 16 0 rfl (by decide)⟩

/-- Claim C18: for every `n < 2 ^ (7 * wordSize)` and every previous content of a
word of `wordSize` bytes, `PutUvarint` writes `n` into the word without indexing
past it, leaves the stale bytes behind the encoding in place, and decoding the
word yields `n` all the same; hence `initPadding` on a view of a block with
arbitrary content, whose word indices are all of this size, returns, only the
view has changed, and every word `i` of the view decodes to `i` (with a word
index beyond that size `initPadding` panics). -/
theorem C18_header_words_survive :
    (∀ (n : Nat) (w : List Byte), n < 2 ^ (7 * wordSize) → w.length = wordSize →
      ∃ w' k, PutUvarint w n = some (w', k) ∧ k ≤ wordSize ∧ w'.length = wordSize ∧
        w'.drop k = w.drop k ∧ Uvarint w' = (n, (k : Int))) ∧
    (∀ (h : Heap) (hd : Slice) (b : List Byte), h[hd.blk]? = some b →
      hd.off + hd.len ≤ b.length →
      (2 ^ (7 * wordSize) < hd.len / wordSize → initPadding h hd = none) ∧
      (hd.len / wordSize ≤ 2 ^ (7 * wordSize) →
        ∃ h' b', initPadding h hd = some h' ∧ h'[hd.blk]? = some b' ∧ b'.length = b.length ∧
          (∀ o n, o + n ≤ hd.off ∨ hd.off + hd.len ≤ o → window b' o n = window b o n) ∧
          ∀ i, i < hd.len / wordSize →
            (Uvarint (window b' (hd.off + i * wordSize) wordSize)).1 = i)) := by
  constructor
  · intro n w hn hw
    have hne : w ≠ [] := by
      intro hnil
      rw [hnil] at hw
      exact absurd hw (by decide)
    obtain ⟨w', k, hp⟩ := PutUvarint_some_of_small w n hne (by rw [hw]; exact hn)
    obtain ⟨hk, hdrop⟩ := PutUvarint_drop w n w' k hp
    exact ⟨w', k, hp, by rw [← hw]; exact hk, by rw [PutUvarint_length _ _ _ _ hp, hw], hdrop,
      Uvarint_PutUvarint w w' n k (by rw [hw]; decide) hp⟩
  · intro h hd b hb hin
    obtain ⟨hnone, hsome⟩ := initPadding_words h hd b hb hin
    refine ⟨hnone, fun hp => ?_⟩
    obtain ⟨h', b', hi, hb', hl, _, hfr, hw⟩ := hsome hp
    exact ⟨h', b', hi, hb', hl, hfr, fun i hi' => (hw i hi').1⟩

/-- Claim C18, witness: 300 written over a word of stale bytes, and `initPadding`
over the first two words of a block of stale bytes. -/
theorem C18_header_words_survive_witness :
    (∃ w' k, PutUvarint [9, 9, 9, 9, 9, 9, 9, 9] 300 = some (w', k) ∧ k ≤ wordSize ∧
        w'.length = wordSize ∧ w'.drop k = ([9, 9, 9, 9, 9, 9, 9, 9] : List Byte).drop k ∧
        Uvarint w' = (300, (k : Int))) ∧
    ((2 ^ (7 * wordSize) < (⟨0, 0, 16, 18⟩ : Slice).len / wordSize →
        initPadding [List.replicate 18 255] ⟨0, 0, 16, 18⟩ = none) ∧
      ((⟨0, 0, 16, 18⟩ : Slice).len / wordSize ≤ 2 ^ (7 * wordSize) →
        ∃ h' b', initPadding [List.replicate 18 255] ⟨0, 0, 16, 18⟩ = some h' ∧
          h'[(⟨0, 0, 16, 18⟩ : Slice).blk]? = some b' ∧
          b'.length = (List.replicate 18 (255 : Byte)).length ∧
          (∀ o n, o + n ≤ (⟨0, 0, 16, 18⟩ : Slice).off ∨
              (⟨0, 0, 16, 18⟩ : Slice).off + (⟨0, 0, 16, 18⟩ : Slice).len ≤ o →
            window b' o n = window (List.replicate 18 255) o n) ∧
          ∀ i, i < (⟨0, 0, 16, 18⟩ : Slice).len / wordSize →
            (Uvarint (window b' ((⟨0, 0, 16, 18⟩ : Slice).off + i * wordSize) wordSize)).1 = i)) :=
  ⟨C18_header_words_survive.1 300 [9, 9, 9, 9, 9, 9, 9, 9] (by decide) rfl,
    C18_header_words_survive.2 [List.replicate 18 255] ⟨0, 0, 16, 18⟩ (List.replicate 18 255)
      rfl (by decide)⟩

end Padded
